import Mathlib

/-!
# UART-over-BLE bridge (`UARTService`)

A shallow embedding of `src/BLE_API/services/UARTService.h`: the outbound
coalescer `write` with its one-character form `_putc`, the inbound capture
`onDataWritten` and the sequential reader `_getc`, with the properties proved
about them.

Conventions of the embedding:
* a byte (`uint8_t` stored in a buffer) is a `Fin 256`;
* `uint8_t` / `uint16_t` / `unsigned` scalars are `Nat`, every assignment that
  converts to one of these types carries its `% 2^w`;
* `size_t` values are the sizes of real objects and are plain `Nat`;
* an access outside an array is a `Fault.outOfBounds`, never a silent value;
* the `while` loop of `write` runs on fuel; `write` supplies `length + 1`, and
  `writeLoop_fuel_irrelevant` shows the fuel is never exhausted.
-/

/-- A byte held in one of the buffers (`uint8_t`). -/
abbrev Byte := Fin 256

/-- Ways in which the embedded code can fail to produce a result. -/
inductive Fault where
  | outOfBounds
  | outOfFuel
deriving DecidableEq, Repr

/-- One call of `BLEDevice::updateCharacteristicValue(handle, value, size)`:
the attribute handle and the `size` bytes handed over. -/
structure Notification where
  handle : Nat
  payload : List Byte
deriving DecidableEq, Repr

/-- Modelled from the spec: the transport adapter `BLEDevice` (its header is
not among the sources). Only the two capabilities the bridge consumes are
kept: the `connected` flag of `getGapState()` and the record of the
notifications sent so far, oldest first. -/
structure BLEDevice where
  connected : Bool
  sent : List Notification
deriving DecidableEq, Repr

namespace BLEDevice

/-- Modelled from the spec: `sendNotification(attributeHandle, bytes, length)`,
fire-and-forget: the first `size` bytes of `value` are appended to the record
as one notification. Reading more than `value` holds is an out-of-bounds
access. -/
def updateCharacteristicValue (ble : BLEDevice) (handle : Nat) (value : List Byte)
    (size : Nat) : Except Fault BLEDevice :=
  if size ≤ value.length then
    .ok { ble with sent := ble.sent ++ [⟨handle, value.take size⟩] }
  else .error .outOfBounds

end BLEDevice

/-- Modelled from the spec: the `(attributeHandle, data, length)` delivered
on an inbound write; the declaration of the struct is not among the sources.
`charHandle` and `len` are `uint16_t`, `data` points at the written bytes. -/
structure GattCharacteristicWriteCBParams where
  charHandle : Nat
  len : Nat
  data : List Byte
deriving DecidableEq, Repr

/-- The fields of `class UARTService`. The two characteristics are kept as the
handles of their value attributes. -/
structure UARTService where
  ble : BLEDevice
  receiveBuffer : List Byte
  sendBuffer : List Byte
  sendBufferIndex : Nat
  numBytesReceived : Nat
  receiveBufferIndex : Nat
  txCharacteristic : Nat
  rxCharacteristic : Nat
deriving DecidableEq, Repr

/-- Modelled from the spec: the end-of-stream sentinel of `readByte`. `EOF`
comes from `<stdio.h>`, which is not among the sources; the C library of the
target defines it as -1. -/
def EOF : Int := -1

/-- The library routine `memcpy(&dst[dstOff], &src[srcOff], n)`: `none` when
either range leaves its array. -/
def memcpy (dst : List Byte) (dstOff : Nat) (src : List Byte) (srcOff : Nat) (n : Nat) :
    Option (List Byte) :=
  if dstOff + n ≤ dst.length ∧ srcOff + n ≤ src.length then
    some (dst.take dstOff ++ (src.drop srcOff).take n ++ dst.drop (dstOff + n))
  else none

namespace UARTService

def GATT_MTU_SIZE_DEFAULT : Nat := 23

def BLE_UART_SERVICE_MAX_DATA_LEN : Nat := GATT_MTU_SIZE_DEFAULT - 3

/-- The constructor: both buffers zero-filled, the three cursors 0. The
handles are the ones the stack assigned to the two characteristics. -/
def new (ble : BLEDevice) (txHandle rxHandle : Nat) : UARTService :=
  { ble := ble
    receiveBuffer := List.replicate BLE_UART_SERVICE_MAX_DATA_LEN 0
    sendBuffer := List.replicate BLE_UART_SERVICE_MAX_DATA_LEN 0
    sendBufferIndex := 0
    numBytesReceived := 0
    receiveBufferIndex := 0
    txCharacteristic := txHandle
    rxCharacteristic := rxHandle }

def getTXCharacteristicHandle (self : UARTService) : Nat := self.txCharacteristic

def getRXCharacteristicHandle (self : UARTService) : Nat := self.rxCharacteristic

/-- The callback `onDataWritten(params)`. -/
def onDataWritten (self : UARTService) (params : GattCharacteristicWriteCBParams) :
    Except Fault UARTService :=
  if params.charHandle = self.getTXCharacteristicHandle then
    let bytesRead := params.len % 65536
    if bytesRead ≤ BLE_UART_SERVICE_MAX_DATA_LEN then
      let numBytesReceived := bytesRead % 256
      match memcpy self.receiveBuffer 0 params.data 0 numBytesReceived with
      | none => .error .outOfBounds
      | some receiveBuffer =>
        .ok { self with
              numBytesReceived := numBytesReceived
              receiveBufferIndex := 0
              receiveBuffer := receiveBuffer }
    else .ok self
  else .ok self

/-- The test `sendBufferIndex == N || sendBuffer[sendBufferIndex - 1] == '\n'`
of `write` ("have we collected enough?"); the right operand is evaluated only
when the left one is false. -/
def collectedEnough (sendBuffer : List Byte) (sendBufferIndex : Nat) : Except Fault Bool :=
  if sendBufferIndex = BLE_UART_SERVICE_MAX_DATA_LEN then .ok true
  else if sendBufferIndex = 0 then .error .outOfBounds
  else
    match sendBuffer[sendBufferIndex - 1]? with
    | none => .error .outOfBounds
    | some b => .ok (decide (b = 10))

/-- The `while (length)` loop of `write`, one iteration per unit of fuel. -/
def writeLoop (buffer : List Byte) :
    Nat → UARTService → Nat → Nat → Except Fault UARTService
  | 0, self, length, _ => if length = 0 then .ok self else .error .outOfFuel
  | fuel + 1, self, length, bufferIndex =>
    if length = 0 then .ok self
    else
      let bytesRemainingInSendBuffer :=
        (BLE_UART_SERVICE_MAX_DATA_LEN + 4294967296 - self.sendBufferIndex) % 4294967296
      let bytesToCopy :=
        if length < bytesRemainingInSendBuffer then length else bytesRemainingInSendBuffer
      match memcpy self.sendBuffer self.sendBufferIndex buffer bufferIndex bytesToCopy with
      | none => .error .outOfBounds
      | some sendBuffer =>
        let length := length - bytesToCopy
        let sendBufferIndex := (self.sendBufferIndex + bytesToCopy) % 256
        let bufferIndex := bufferIndex + bytesToCopy
        match collectedEnough sendBuffer sendBufferIndex with
        | .error e => .error e
        | .ok true =>
          match self.ble.updateCharacteristicValue self.getRXCharacteristicHandle
              sendBuffer sendBufferIndex with
          | .error e => .error e
          | .ok ble =>
            writeLoop buffer fuel
              { self with sendBuffer := sendBuffer, sendBufferIndex := 0, ble := ble }
              length bufferIndex
        | .ok false =>
          writeLoop buffer fuel
            { self with sendBuffer := sendBuffer, sendBufferIndex := sendBufferIndex }
            length bufferIndex

/-- The method `write(_buffer, length)`: the value returned and the object
afterwards. `buffer` is the array `_buffer` points at; `length` is the size
of an object, so converting `origLength` to `ssize_t` keeps its value. -/
def write (self : UARTService) (buffer : List Byte) (length : Nat) :
    Except Fault (Int × UARTService) :=
  let origLength := length
  if self.ble.connected then
    match writeLoop buffer (length + 1) self length 0 with
    | .error e => .error e
    | .ok self => .ok ((origLength : Int), self)
  else .ok ((origLength : Int), self)

/-- The four bytes of the `int` object `c`, lowest address first: on the
target (nRF51822, ARM Cortex-M0) an `int` is 32 bits, two's complement and
little-endian. `write(&c, 1)` reads from this array. -/
def intBytes (c : Int) : List Byte :=
  (List.range 4).map (fun i => Fin.ofNat ((c / 256 ^ i) % 256).toNat)

/-- The method `_putc(c)`. -/
def _putc (self : UARTService) (c : Int) : Except Fault (Int × UARTService) :=
  match self.write (intBytes c) 1 with
  | .error e => .error e
  | .ok (r, self) => .ok (if r = 1 then 1 else EOF, self)

/-- The method `_getc()`. -/
def _getc (self : UARTService) : Except Fault (Int × UARTService) :=
  if self.receiveBufferIndex = self.numBytesReceived then .ok (EOF, self)
  else
    match self.receiveBuffer[self.receiveBufferIndex]? with
    | none => .error .outOfBounds
    | some b =>
      .ok ((b.val : Int),
        { self with receiveBufferIndex := (self.receiveBufferIndex + 1) % 256 })

/-- The results of `n` consecutive calls of `_getc()`, in call order, and the
object after the last of them. -/
def getcs : Nat → UARTService → Except Fault (List Int × UARTService)
  | 0, self => .ok ([], self)
  | n + 1, self =>
    match self._getc with
    | .error e => .error e
    | .ok (c, self) =>
      match getcs n self with
      | .error e => .error e
      | .ok (cs, self) => .ok (c :: cs, self)

/-- What the loop of `write` leaves unchanged. -/
def SameFrame (s t : UARTService) : Prop :=
  t.receiveBuffer = s.receiveBuffer ∧ t.numBytesReceived = s.numBytesReceived ∧
  t.receiveBufferIndex = s.receiveBufferIndex ∧ t.txCharacteristic = s.txCharacteristic ∧
  t.rxCharacteristic = s.rxCharacteristic ∧ t.ble.connected = s.ble.connected

/-- The bytes `bs` written one at a time, by `bs.length` successive calls
`write(&b, 1)`: the object after the last call. -/
def writeEach : UARTService → List Byte → Except Fault UARTService
  | self, [] => .ok self
  | self, b :: bs =>
    match self.write [b] 1 with
    | .error e => .error e
    | .ok (_, self) => writeEach self bs

/-- The reference segmentation of a byte sequence, following the words of the
specification: with `pending` the bytes since the last cut, cut after each
`0x0A` and after every `N`-th byte without a cut. The result is the list of
segments cut off, in order, and the bytes after the last cut. -/
def referenceSegments (pending : List Byte) : List Byte → List (List Byte) × List Byte
  | [] => ([], pending)
  | b :: bs =>
    if b = 10 ∨ pending.length + 1 = BLE_UART_SERVICE_MAX_DATA_LEN then
      ((pending ++ [b]) :: (referenceSegments [] bs).1, (referenceSegments [] bs).2)
    else referenceSegments (pending ++ [b]) bs

/-- The receive-cursor invariant
`0 ≤ receiveBufferIndex ≤ numBytesReceived ≤ N`, for a receive buffer of `N`
bytes. -/
def ReceiveInvariant (s : UARTService) : Prop :=
  s.receiveBufferIndex ≤ s.numBytesReceived ∧
  s.numBytesReceived ≤ BLE_UART_SERVICE_MAX_DATA_LEN ∧
  s.receiveBuffer.length = BLE_UART_SERVICE_MAX_DATA_LEN

/-- The object after one iteration of the loop of `write` that copies `chunk`
to `sendBuffer[sendBufferIndex ..)` and does not flush. -/
def buffered (s : UARTService) (chunk : List Byte) : UARTService :=
  { s with
    sendBuffer := s.sendBuffer.take s.sendBufferIndex ++ chunk
      ++ s.sendBuffer.drop (s.sendBufferIndex + chunk.length)
    sendBufferIndex := s.sendBufferIndex + chunk.length }

/-- The object after one iteration of the loop of `write` that copies `chunk`
to `sendBuffer[sendBufferIndex ..)` and flushes. -/
def flushed (s : UARTService) (chunk : List Byte) : UARTService :=
  { s with
    sendBuffer := s.sendBuffer.take s.sendBufferIndex ++ chunk
      ++ s.sendBuffer.drop (s.sendBufferIndex + chunk.length)
    sendBufferIndex := 0
    ble := { s.ble with sent := s.ble.sent ++ [⟨s.getRXCharacteristicHandle,
      s.sendBuffer.take s.sendBufferIndex ++ chunk⟩] } }

end UARTService

/-! ## Auxiliary lemmas -/

namespace UARTService

theorem N_eq : BLE_UART_SERVICE_MAX_DATA_LEN = 20 := rfl

theorem memcpy_eq_some {dst src : List Byte} {dstOff srcOff n : Nat}
    (hd : dstOff + n ≤ dst.length) (hs : srcOff + n ≤ src.length) :
    memcpy dst dstOff src srcOff n =
      some (dst.take dstOff ++ (src.drop srcOff).take n ++ dst.drop (dstOff + n)) := by
  simp [memcpy, hd, hs]

theorem collectedEnough_splice (pre chunk post : List Byte) (hne : chunk ≠ []) :
    collectedEnough (pre ++ chunk ++ post) (pre.length + chunk.length) =
      .ok (decide (pre.length + chunk.length = BLE_UART_SERVICE_MAX_DATA_LEN
        ∨ chunk.getLast? = some 10)) := by
  have hpos : 0 < chunk.length := List.length_pos.mpr hne
  unfold collectedEnough
  by_cases hfull : pre.length + chunk.length = BLE_UART_SERVICE_MAX_DATA_LEN
  · simp [hfull]
  · have h0 : pre.length + chunk.length ≠ 0 := by omega
    have hget : (pre ++ chunk ++ post)[pre.length + chunk.length - 1]? = chunk.getLast? := by
      rw [List.append_assoc, List.getElem?_append_right (by omega),
        List.getElem?_append_left (by omega), List.getLast?_eq_getElem?]
      congr 1
      omega
    rw [if_neg hfull, if_neg h0, hget]
    cases hl : chunk.getLast? with
    | none =>
      rw [List.getLast?_eq_none_iff] at hl
      exact absurd hl hne
    | some b => simp [hfull]

/-- One iteration of the loop of `write` from a state inside the capacity
invariant: `min length (N - sendBufferIndex)` bytes are appended, and the
buffer is flushed exactly when it is full or the chunk ends in `'\n'`. -/
theorem writeLoop_step (buffer : List Byte) (fuel : Nat) (s : UARTService) (L bi : Nat)
    (hsb : s.sendBuffer.length = BLE_UART_SERVICE_MAX_DATA_LEN)
    (hk : s.sendBufferIndex < BLE_UART_SERVICE_MAX_DATA_LEN)
    (hL : 0 < L) (hsrc : bi + L ≤ buffer.length) :
    writeLoop buffer (fuel + 1) s L bi =
      if s.sendBufferIndex + min L (BLE_UART_SERVICE_MAX_DATA_LEN - s.sendBufferIndex)
            = BLE_UART_SERVICE_MAX_DATA_LEN
          ∨ ((buffer.drop bi).take
              (min L (BLE_UART_SERVICE_MAX_DATA_LEN - s.sendBufferIndex))).getLast? = some 10 then
        writeLoop buffer fuel
          { s with
            sendBuffer := s.sendBuffer.take s.sendBufferIndex
              ++ (buffer.drop bi).take (min L (BLE_UART_SERVICE_MAX_DATA_LEN - s.sendBufferIndex))
              ++ s.sendBuffer.drop (s.sendBufferIndex
                  + min L (BLE_UART_SERVICE_MAX_DATA_LEN - s.sendBufferIndex))
            sendBufferIndex := 0
            ble := { s.ble with sent := s.ble.sent ++ [⟨s.getRXCharacteristicHandle,
              s.sendBuffer.take s.sendBufferIndex ++ (buffer.drop bi).take
                (min L (BLE_UART_SERVICE_MAX_DATA_LEN - s.sendBufferIndex))⟩] } }
          (L - min L (BLE_UART_SERVICE_MAX_DATA_LEN - s.sendBufferIndex))
          (bi + min L (BLE_UART_SERVICE_MAX_DATA_LEN - s.sendBufferIndex))
      else
        writeLoop buffer fuel
          { s with
            sendBuffer := s.sendBuffer.take s.sendBufferIndex
              ++ (buffer.drop bi).take (min L (BLE_UART_SERVICE_MAX_DATA_LEN - s.sendBufferIndex))
              ++ s.sendBuffer.drop (s.sendBufferIndex
                  + min L (BLE_UART_SERVICE_MAX_DATA_LEN - s.sendBufferIndex))
            sendBufferIndex := s.sendBufferIndex
              + min L (BLE_UART_SERVICE_MAX_DATA_LEN - s.sendBufferIndex) }
          (L - min L (BLE_UART_SERVICE_MAX_DATA_LEN - s.sendBufferIndex))
          (bi + min L (BLE_UART_SERVICE_MAX_DATA_LEN - s.sendBufferIndex)) := by
  rw [N_eq] at hsb hk
  simp only [N_eq]
  have hrem : (20 + 4294967296 - s.sendBufferIndex) % 4294967296 = 20 - s.sendBufferIndex := by
    omega
  have hcopy : (if L < 20 - s.sendBufferIndex then L else 20 - s.sendBufferIndex)
      = min L (20 - s.sendBufferIndex) := by
    split <;> omega
  generalize hn : min L (20 - s.sendBufferIndex) = n at hcopy
  have hn1 : 1 ≤ n := by omega
  have hn2 : n ≤ L := by omega
  have hn3 : s.sendBufferIndex + n ≤ 20 := by omega
  have hchunk : ((buffer.drop bi).take n).length = n := by
    rw [List.length_take, List.length_drop]; omega
  have hpre : (s.sendBuffer.take s.sendBufferIndex).length = s.sendBufferIndex := by
    rw [List.length_take]; omega
  have hne : (buffer.drop bi).take n ≠ [] := by
    intro h; rw [h] at hchunk; simp at hchunk; omega
  have hce := collectedEnough_splice (s.sendBuffer.take s.sendBufferIndex)
    ((buffer.drop bi).take n) (s.sendBuffer.drop (s.sendBufferIndex + n)) hne
  rw [hpre, hchunk, N_eq] at hce
  have hmod : (s.sendBufferIndex + n) % 256 = s.sendBufferIndex + n := by omega
  have htake : (s.sendBuffer.take s.sendBufferIndex ++ (buffer.drop bi).take n
      ++ s.sendBuffer.drop (s.sendBufferIndex + n)).take (s.sendBufferIndex + n)
      = s.sendBuffer.take s.sendBufferIndex ++ (buffer.drop bi).take n := by
    rw [List.take_append_eq_append_take]
    simp [hpre, hchunk]
  have hlen : s.sendBufferIndex + n ≤ (s.sendBuffer.take s.sendBufferIndex
      ++ (buffer.drop bi).take n ++ s.sendBuffer.drop (s.sendBufferIndex + n)).length := by
    simp only [List.length_append, hpre, hchunk]; omega
  rw [writeLoop, if_neg (by omega)]
  simp only [N_eq, hrem, hcopy]
  rw [memcpy_eq_some (by omega) (by omega)]
  simp only [hmod, hce]
  by_cases hflush : s.sendBufferIndex + n = 20 ∨ ((buffer.drop bi).take n).getLast? = some 10
  · simp only [hflush, decide_True, if_true, BLEDevice.updateCharacteristicValue, hlen, htake]
  · simp only [hflush, decide_False, if_false]

theorem take_drop_chunks (b : List Byte) (bi n L : Nat) (h : n ≤ L) :
    (b.drop bi).take n ++ (b.drop (bi + n)).take (L - n) = (b.drop bi).take L := by
  have h1 : b.drop (bi + n) = (b.drop bi).drop n := by rw [List.drop_drop, Nat.add_comm]
  have h2 : (b.drop bi).take L = (b.drop bi).take (n + (L - n)) := by congr 1; omega
  rw [h1, h2, List.take_add]

/-- The loop of `write`, started inside the capacity invariant with at least
`length` units of fuel, ends normally; it keeps the invariant, touches
nothing outside the send side, sends payloads of 1 to `N` bytes, and the
payloads followed by the bytes left buffered are the bytes buffered before
followed by the input. -/
theorem writeLoop_spec (buffer : List Byte) :
    ∀ (fuel : Nat) (s : UARTService) (L bi : Nat),
      s.sendBuffer.length = BLE_UART_SERVICE_MAX_DATA_LEN →
      s.sendBufferIndex < BLE_UART_SERVICE_MAX_DATA_LEN →
      bi + L ≤ buffer.length → L ≤ fuel →
      ∃ t, writeLoop buffer fuel s L bi = .ok t ∧
        t.sendBuffer.length = BLE_UART_SERVICE_MAX_DATA_LEN ∧
        t.sendBufferIndex < BLE_UART_SERVICE_MAX_DATA_LEN ∧
        SameFrame s t ∧
        ∃ out : List (List Byte),
          t.ble.sent = s.ble.sent ++ out.map (fun p => ⟨s.getRXCharacteristicHandle, p⟩) ∧
          (∀ p ∈ out, 1 ≤ p.length ∧ p.length ≤ BLE_UART_SERVICE_MAX_DATA_LEN) ∧
          out.flatten ++ t.sendBuffer.take t.sendBufferIndex
            = s.sendBuffer.take s.sendBufferIndex ++ (buffer.drop bi).take L := by
  intro fuel
  induction fuel with
  | zero =>
    intro s L bi hsb hk _ hfuel
    have hL : L = 0 := by omega
    subst hL
    exact ⟨s, by simp [writeLoop], hsb, hk, ⟨rfl, rfl, rfl, rfl, rfl, rfl⟩, [], by simp, by simp,
      by simp⟩
  | succ fuel ih =>
    intro s L bi hsb hk hsrc hfuel
    by_cases hL : L = 0
    · subst hL
      exact ⟨s, by simp [writeLoop], hsb, hk, ⟨rfl, rfl, rfl, rfl, rfl, rfl⟩, [], by simp,
        by simp, by simp⟩
    · rw [writeLoop_step buffer fuel s L bi hsb hk (by omega) hsrc]
      rw [N_eq] at hsb hk
      simp only [N_eq]
      generalize hn : min L (20 - s.sendBufferIndex) = n
      have hn1 : 1 ≤ n := by omega
      have hn2 : n ≤ L := by omega
      have hn3 : s.sendBufferIndex + n ≤ 20 := by omega
      have hchunk : ((buffer.drop bi).take n).length = n := by
        rw [List.length_take, List.length_drop]; omega
      have hpre : (s.sendBuffer.take s.sendBufferIndex).length = s.sendBufferIndex := by
        rw [List.length_take]; omega
      have hlen : (s.sendBuffer.take s.sendBufferIndex ++ (buffer.drop bi).take n
          ++ s.sendBuffer.drop (s.sendBufferIndex + n)).length = 20 := by
        simp only [List.length_append, hpre, hchunk, List.length_drop]; omega
      have htake : (s.sendBuffer.take s.sendBufferIndex ++ (buffer.drop bi).take n
          ++ s.sendBuffer.drop (s.sendBufferIndex + n)).take (s.sendBufferIndex + n)
          = s.sendBuffer.take s.sendBufferIndex ++ (buffer.drop bi).take n := by
        rw [List.take_append_eq_append_take]
        simp [hpre, hchunk]
      split
      · obtain ⟨t, ht, htl, hti, hfr, out, hsent, hbound, hstream⟩ :=
          ih { s with
              sendBuffer := s.sendBuffer.take s.sendBufferIndex ++ (buffer.drop bi).take n
                ++ s.sendBuffer.drop (s.sendBufferIndex + n)
              sendBufferIndex := 0
              ble := { s.ble with sent := s.ble.sent ++ [⟨s.getRXCharacteristicHandle,
                s.sendBuffer.take s.sendBufferIndex ++ (buffer.drop bi).take n⟩] } }
            (L - n) (bi + n) (by rw [N_eq]; exact hlen) (by rw [N_eq]; simp only; omega)
            (by omega) (by omega)
        refine ⟨t, ht, htl, hti, ?_, (s.sendBuffer.take s.sendBufferIndex
          ++ (buffer.drop bi).take n) :: out, ?_, ?_, ?_⟩
        · exact hfr
        · rw [hsent]; simp [getRXCharacteristicHandle]
        · intro p hp
          rcases List.mem_cons.mp hp with rfl | hp
          · rw [List.length_append, hpre, hchunk]; omega
          · exact hbound p hp
        · rw [List.flatten_cons, List.append_assoc, hstream]
          simp only [List.take_zero, List.nil_append, List.append_assoc]
          rw [take_drop_chunks buffer bi n L hn2]
      · obtain ⟨t, ht, htl, hti, hfr, out, hsent, hbound, hstream⟩ :=
          ih { s with
              sendBuffer := s.sendBuffer.take s.sendBufferIndex ++ (buffer.drop bi).take n
                ++ s.sendBuffer.drop (s.sendBufferIndex + n)
              sendBufferIndex := s.sendBufferIndex + n }
            (L - n) (bi + n) (by rw [N_eq]; exact hlen) (by rw [N_eq]; simp only; omega)
            (by omega) (by omega)
        refine ⟨t, ht, htl, hti, hfr, out, hsent, hbound, ?_⟩
        rw [hstream]
        simp only []
        rw [htake, List.append_assoc, take_drop_chunks buffer bi n L hn2]

theorem collectedEnough_error {sb : List Byte} {i : Nat} {e : Fault}
    (h : collectedEnough sb i = .error e) : e = .outOfBounds := by
  unfold collectedEnough at h
  split at h
  · cases h
  · split at h
    · cases h; rfl
    · split at h
      · cases h; rfl
      · cases h

theorem collectedEnough_false {sb : List Byte} {i : Nat}
    (h : collectedEnough sb i = .ok false) : i ≠ BLE_UART_SERVICE_MAX_DATA_LEN := by
  intro hi
  simp [collectedEnough, hi] at h

theorem updateCharacteristicValue_error {ble : BLEDevice} {handle size : Nat}
    {value : List Byte} {e : Fault}
    (h : ble.updateCharacteristicValue handle value size = .error e) : e = .outOfBounds := by
  unfold BLEDevice.updateCharacteristicValue at h
  split at h
  · cases h
  · cases h; rfl

/-- Away from a full buffer every iteration consumes input, so `length` units
of fuel are enough, in every state and for every input. -/
theorem writeLoop_fuel_of_not_full (buffer : List Byte) :
    ∀ (fuel : Nat) (s : UARTService) (L bi : Nat),
      s.sendBufferIndex < 256 → s.sendBufferIndex ≠ BLE_UART_SERVICE_MAX_DATA_LEN →
      L ≤ fuel → writeLoop buffer fuel s L bi ≠ .error .outOfFuel := by
  intro fuel
  induction fuel with
  | zero =>
    intro s L bi _ _ hfuel
    have hL : L = 0 := by omega
    simp [writeLoop, hL]
  | succ fuel ih =>
    intro s L bi h256 hne hfuel
    rw [writeLoop]
    split
    · simp
    · rename_i hL
      rw [N_eq] at hne
      simp only [N_eq]
      have hrem : 1 ≤ (20 + 4294967296 - s.sendBufferIndex) % 4294967296 := by omega
      generalize (20 + 4294967296 - s.sendBufferIndex) % 4294967296 = r at hrem
      have hn : 1 ≤ (if L < r then L else r) := by split <;> omega
      have hn2 : (if L < r then L else r) ≤ L := by split <;> omega
      generalize (if L < r then L else r) = n at hn hn2
      split
      · simp
      · split
        · rename_i e he
          rw [collectedEnough_error he]; simp
        · split
          · rename_i e he
            rw [updateCharacteristicValue_error he]; simp
          · exact ih _ _ _ (by simp) (by rw [N_eq]; simp) (by omega)
        · rename_i he
          exact ih _ _ _ (by simp only; omega) (collectedEnough_false he) (by omega)

/-- The fuel `write` hands to its loop is never exhausted: in every state and
for every input the loop reaches `length == 0` or an out-of-bounds access. -/
theorem writeLoop_fuel_irrelevant (buffer : List Byte) (s : UARTService) (L bi : Nat) :
    writeLoop buffer (L + 1) s L bi ≠ .error .outOfFuel := by
  rw [writeLoop]
  split
  · simp
  · generalize (BLE_UART_SERVICE_MAX_DATA_LEN + 4294967296 - s.sendBufferIndex) % 4294967296 = r
    have hn2 : (if L < r then L else r) ≤ L := by split <;> omega
    generalize (if L < r then L else r) = n at hn2
    simp only
    split
    · simp
    · split
      · rename_i e he
        rw [collectedEnough_error he]; simp
      · split
        · rename_i e he
          rw [updateCharacteristicValue_error he]; simp
        · exact writeLoop_fuel_of_not_full buffer _ _ _ _ (by simp) (by rw [N_eq]; simp) (by omega)
      · rename_i he
        exact writeLoop_fuel_of_not_full buffer _ _ _ _ (by simp only; omega)
          (collectedEnough_false he) (by omega)

theorem write_ne_outOfFuel (s : UARTService) (buffer : List Byte) (length : Nat) :
    write s buffer length ≠ .error .outOfFuel := by
  unfold write
  simp only
  split
  · split
    · rename_i e he
      intro h
      cases h
      exact writeLoop_fuel_irrelevant buffer s length 0 he
    · simp
  · simp

theorem writeLoop_zero_length (buffer : List Byte) (fuel : Nat) (s : UARTService) (bi : Nat) :
    writeLoop buffer fuel s 0 bi = .ok s := by
  cases fuel <;> simp [writeLoop]

/-- A connected write that fits in the free part of the send buffer is one
iteration of the loop: the input is appended, and the buffer is flushed
exactly when it becomes full or the input ends in `'\n'`. -/
theorem write_short (s : UARTService) (x : List Byte)
    (hc : s.ble.connected = true)
    (hsb : s.sendBuffer.length = BLE_UART_SERVICE_MAX_DATA_LEN)
    (hx : x ≠ [])
    (hfit : s.sendBufferIndex + x.length ≤ BLE_UART_SERVICE_MAX_DATA_LEN) :
    write s x x.length = .ok ((x.length : Int),
      if s.sendBufferIndex + x.length = BLE_UART_SERVICE_MAX_DATA_LEN
          ∨ x.getLast? = some 10 then
        { s with
          sendBuffer := s.sendBuffer.take s.sendBufferIndex ++ x
            ++ s.sendBuffer.drop (s.sendBufferIndex + x.length)
          sendBufferIndex := 0
          ble := { s.ble with sent := s.ble.sent ++ [⟨s.getRXCharacteristicHandle,
            s.sendBuffer.take s.sendBufferIndex ++ x⟩] } }
      else
        { s with
          sendBuffer := s.sendBuffer.take s.sendBufferIndex ++ x
            ++ s.sendBuffer.drop (s.sendBufferIndex + x.length)
          sendBufferIndex := s.sendBufferIndex + x.length }) := by
  have hpos : 0 < x.length := List.length_pos.mpr hx
  have hk : s.sendBufferIndex < BLE_UART_SERVICE_MAX_DATA_LEN := by omega
  have hmin : min x.length (BLE_UART_SERVICE_MAX_DATA_LEN - s.sendBufferIndex) = x.length := by
    omega
  have hloop := writeLoop_step x x.length s x.length 0 hsb hk hpos (by omega)
  simp only [hmin, List.drop_zero, List.take_length, Nat.sub_self, writeLoop_zero_length]
    at hloop
  unfold write
  simp only []
  rw [if_pos hc, hloop]
  by_cases hcond : s.sendBufferIndex + x.length = BLE_UART_SERVICE_MAX_DATA_LEN
      ∨ x.getLast? = some 10
  · simp only [if_pos hcond]
  · simp only [if_neg hcond]

/-- From an empty send buffer, input without `'\n'` leaves the loop of
`write` in full chunks of `N` bytes; the remainder stays buffered. -/
theorem writeLoop_chunks (buffer : List Byte) (hnl : (10 : Byte) ∉ buffer) :
    ∀ (fuel : Nat) (s : UARTService) (L bi : Nat),
      s.sendBuffer.length = BLE_UART_SERVICE_MAX_DATA_LEN →
      s.sendBufferIndex = 0 →
      bi + L ≤ buffer.length → L ≤ fuel →
      ∃ t, writeLoop buffer fuel s L bi = .ok t ∧
        t.ble.sent = s.ble.sent ++ (List.range (L / BLE_UART_SERVICE_MAX_DATA_LEN)).map
          (fun i => ⟨s.getRXCharacteristicHandle,
            (buffer.drop (bi + i * BLE_UART_SERVICE_MAX_DATA_LEN)).take
              BLE_UART_SERVICE_MAX_DATA_LEN⟩) ∧
        t.sendBufferIndex = L % BLE_UART_SERVICE_MAX_DATA_LEN ∧
        t.sendBuffer.take (L % BLE_UART_SERVICE_MAX_DATA_LEN)
          = (buffer.drop (bi + (L - L % BLE_UART_SERVICE_MAX_DATA_LEN))).take
              (L % BLE_UART_SERVICE_MAX_DATA_LEN) := by
  intro fuel
  induction fuel with
  | zero =>
    intro s L bi _ hk _ hfuel
    have hL : L = 0 := by omega
    subst hL
    exact ⟨s, by simp [writeLoop], by simp, by simp [hk], by simp⟩
  | succ fuel ih =>
    intro s L bi hsb hk hsrc hfuel
    by_cases hL : L = 0
    · subst hL
      exact ⟨s, by simp [writeLoop], by simp, by simp [hk], by simp⟩
    · rw [writeLoop_step buffer fuel s L bi hsb (by rw [hk, N_eq]; decide) (by omega) hsrc]
      rw [N_eq] at hsb
      simp only [N_eq, hk, Nat.zero_add, Nat.sub_zero, List.take_zero, List.nil_append]
      by_cases hlt : L < 20
      · have hmin : min L 20 = L := by omega
        have hcond : ¬(L = 20 ∨ ((buffer.drop bi).take L).getLast? = some 10) := by
          rintro (h | h)
          · omega
          · exact hnl (List.mem_of_mem_drop (List.mem_of_mem_take
              (List.mem_of_getLast?_eq_some h)))
        have hchunk : ((buffer.drop bi).take L).length = L := by
          rw [List.length_take, List.length_drop]; omega
        rw [hmin, if_neg hcond, Nat.sub_self, writeLoop_zero_length]
        refine ⟨_, rfl, ?_, ?_, ?_⟩
        · simp [Nat.div_eq_of_lt hlt]
        · simp [Nat.mod_eq_of_lt hlt]
        · simp only [Nat.mod_eq_of_lt hlt, Nat.sub_self, Nat.add_zero]
          rw [List.take_append_eq_append_take, hchunk, Nat.sub_self]
          simp
      · have hmin : min L 20 = 20 := by omega
        rw [hmin, if_pos (Or.inl rfl)]
        obtain ⟨t, ht, hsent, hidx, htake⟩ :=
          ih { s with
              sendBuffer := (buffer.drop bi).take 20 ++ s.sendBuffer.drop 20
              sendBufferIndex := 0
              ble := { s.ble with sent := s.ble.sent ++ [⟨s.getRXCharacteristicHandle,
                (buffer.drop bi).take 20⟩] } }
            (L - 20) (bi + 20)
            (by simp only [N_eq, List.length_append, List.length_take, List.length_drop]; omega)
            rfl (by omega) (by omega)
        have hdiv : L / 20 = (L - 20) / 20 + 1 := by omega
        have hmod : (L - 20) % 20 = L % 20 := by omega
        refine ⟨t, ht, ?_, ?_, ?_⟩
        · rw [hsent, hdiv, List.range_succ_eq_map]
          simp only [N_eq, List.map_cons, List.map_map, List.append_assoc,
            List.singleton_append, Nat.zero_mul, Nat.add_zero, getRXCharacteristicHandle]
          congr 2
          apply List.map_congr_left
          intro i _
          simp only [Function.comp, Nat.succ_eq_add_one]
          congr 3
          omega
        · rw [hidx, N_eq, hmod]
        · rw [N_eq, hmod] at htake
          rw [htake]
          congr 2
          omega

/-- What `onDataWritten` does with a fragment it accepts. -/
theorem onDataWritten_accept (s : UARTService) (p : GattCharacteristicWriteCBParams)
    (hh : p.charHandle = s.getTXCharacteristicHandle)
    (hN : p.len ≤ BLE_UART_SERVICE_MAX_DATA_LEN)
    (hdata : p.len ≤ p.data.length)
    (hrb : s.receiveBuffer.length = BLE_UART_SERVICE_MAX_DATA_LEN) :
    onDataWritten s p = .ok { s with
      numBytesReceived := p.len
      receiveBufferIndex := 0
      receiveBuffer := p.data.take p.len ++ s.receiveBuffer.drop p.len } := by
  rw [N_eq] at hN hrb
  have h1 : p.len % 65536 = p.len := by omega
  have h2 : p.len % 256 = p.len := by omega
  unfold onDataWritten
  simp only [h1, h2]
  rw [if_pos hh, if_pos (by rw [N_eq]; exact hN), memcpy_eq_some (by omega) (by omega)]
  simp

/-- Reading a captured fragment to its end: from cursor `i` with `m` bytes
unread, `m + 1` calls of `_getc` return those bytes and then `EOF`. -/
theorem getcs_to_end : ∀ (m : Nat) (s : UARTService),
    s.receiveBufferIndex + m = s.numBytesReceived →
    s.numBytesReceived ≤ s.receiveBuffer.length →
    s.numBytesReceived < 256 →
    getcs (m + 1) s = .ok
      (((s.receiveBuffer.drop s.receiveBufferIndex).take m).map (fun b => (b.val : Int))
        ++ [EOF],
       { s with receiveBufferIndex := s.numBytesReceived }) := by
  intro m
  induction m with
  | zero =>
    intro s hi _ _
    have hi2 : s.receiveBufferIndex = s.numBytesReceived := by omega
    cases s
    simp only [] at hi2
    subst hi2
    simp [getcs, _getc]
  | succ m ih =>
    intro s hi hle h256
    have hlt : s.receiveBufferIndex < s.receiveBuffer.length := by omega
    have hne : s.receiveBufferIndex ≠ s.numBytesReceived := by omega
    have hmod : (s.receiveBufferIndex + 1) % 256 = s.receiveBufferIndex + 1 := by omega
    have hstep : s._getc = .ok (((s.receiveBuffer[s.receiveBufferIndex]).val : Int),
        { s with receiveBufferIndex := s.receiveBufferIndex + 1 }) := by
      simp only [_getc, if_neg hne, List.getElem?_eq_getElem hlt, hmod]
    have hrec := ih { s with receiveBufferIndex := s.receiveBufferIndex + 1 }
      (by simp only; omega) hle h256
    rw [getcs, hstep]
    simp only [hrec]
    rw [List.drop_eq_getElem_cons hlt, List.take_succ_cons, List.map_cons, List.cons_append]

/-- Reading part of a captured fragment: `j` calls of `_getc` that stay
inside the unread bytes return them in order and advance the cursor by `j`. -/
theorem getcs_partial : ∀ (j : Nat) (s : UARTService),
    s.receiveBufferIndex + j ≤ s.numBytesReceived →
    s.numBytesReceived ≤ s.receiveBuffer.length →
    s.numBytesReceived < 256 →
    getcs j s = .ok
      (((s.receiveBuffer.drop s.receiveBufferIndex).take j).map (fun b => (b.val : Int)),
       { s with receiveBufferIndex := s.receiveBufferIndex + j }) := by
  intro j
  induction j with
  | zero =>
    intro s _ _ _
    simp [getcs]
  | succ j ih =>
    intro s hi hle h256
    have hlt : s.receiveBufferIndex < s.receiveBuffer.length := by omega
    have hne : s.receiveBufferIndex ≠ s.numBytesReceived := by omega
    have hmod : (s.receiveBufferIndex + 1) % 256 = s.receiveBufferIndex + 1 := by omega
    have hstep : s._getc = .ok (((s.receiveBuffer[s.receiveBufferIndex]).val : Int),
        { s with receiveBufferIndex := s.receiveBufferIndex + 1 }) := by
      simp only [_getc, if_neg hne, List.getElem?_eq_getElem hlt, hmod]
    have hrec := ih { s with receiveBufferIndex := s.receiveBufferIndex + 1 }
      (by simp only; omega) hle h256
    rw [getcs, hstep]
    simp only [hrec]
    rw [List.drop_eq_getElem_cons hlt, List.take_succ_cons, List.map_cons, Nat.add_assoc,
      Nat.add_comm 1 j]

/-- At the end of the captured fragment `_getc` returns `EOF` and keeps the
object, any number of times. -/
theorem getcs_at_end (s : UARTService) (h : s.receiveBufferIndex = s.numBytesReceived) :
    ∀ n : Nat, getcs n s = .ok (List.replicate n EOF, s) := by
  have hstep : s._getc = .ok (EOF, s) := by simp [_getc, h]
  intro n
  induction n with
  | zero => simp [getcs]
  | succ n ih =>
    rw [getcs, hstep]
    simp only [ih, List.replicate_succ]

/-- A fragment accepted by `onDataWritten` is read back whole by the next
`len + 1` calls of `_getc`, the last of which returns `EOF`. -/
theorem capture_then_read (s : UARTService) (p : GattCharacteristicWriteCBParams)
    (hh : p.charHandle = s.getTXCharacteristicHandle)
    (hN : p.len ≤ BLE_UART_SERVICE_MAX_DATA_LEN)
    (hdata : p.data.length = p.len)
    (hrb : s.receiveBuffer.length = BLE_UART_SERVICE_MAX_DATA_LEN) :
    ∃ t u, onDataWritten s p = .ok t ∧
      getcs (p.len + 1) t = .ok (p.data.map (fun b => (b.val : Int)) ++ [EOF], u) := by
  have ht := onDataWritten_accept s p hh hN (by omega) hrb
  rw [N_eq] at hN hrb
  have hg := getcs_to_end p.len
    { s with
      numBytesReceived := p.len
      receiveBufferIndex := 0
      receiveBuffer := p.data.take p.len ++ s.receiveBuffer.drop p.len }
    (by simp) (by simp; omega) (by simp only; omega)
  simp only [List.drop_zero] at hg
  rw [List.take_append_eq_append_take, List.length_take, hdata, Nat.min_self, Nat.sub_self,
    List.take_take, Nat.min_self, List.take_zero, List.append_nil] at hg
  rw [← hdata, List.take_length, hdata] at hg ht
  exact ⟨_, _, ht, hg⟩

/-- The loop of `write` changes nothing outside the send side, whatever the
state it starts from. -/
theorem writeLoop_frame (buffer : List Byte) :
    ∀ (fuel : Nat) (s : UARTService) (L bi : Nat) (t : UARTService),
      writeLoop buffer fuel s L bi = .ok t → SameFrame s t := by
  intro fuel
  induction fuel with
  | zero =>
    intro s L bi t h
    rw [writeLoop] at h
    split at h
    · cases h; exact ⟨rfl, rfl, rfl, rfl, rfl, rfl⟩
    · cases h
  | succ fuel ih =>
    intro s L bi
    rw [writeLoop]
    split
    · intro t h
      cases h; exact ⟨rfl, rfl, rfl, rfl, rfl, rfl⟩
    · simp only []
      generalize (BLE_UART_SERVICE_MAX_DATA_LEN + 4294967296 - s.sendBufferIndex)
        % 4294967296 = r
      generalize (if L < r then L else r) = n
      split
      · intro t h; cases h
      · split
        · intro t h; cases h
        · split
          · intro t h; cases h
          · rename_i ble hble
            have hconn : ble.connected = s.ble.connected := by
              unfold BLEDevice.updateCharacteristicValue at hble
              split at hble
              · cases hble; rfl
              · cases hble
            intro t h
            obtain ⟨h1, h2, h3, h4, h5, h6⟩ := ih _ _ _ _ h
            exact ⟨h1, h2, h3, h4, h5, by rw [h6]; exact hconn⟩
        · intro t h
          obtain ⟨h1, h2, h3, h4, h5, h6⟩ := ih _ _ _ _ h
          exact ⟨h1, h2, h3, h4, h5, h6⟩

theorem write_frame (s : UARTService) (buffer : List Byte) (length : Nat) (r : Int)
    (t : UARTService) (h : write s buffer length = .ok (r, t)) : SameFrame s t := by
  unfold write at h
  simp only [] at h
  split at h
  · split at h
    · cases h
    · rename_i u hu
      cases h
      exact writeLoop_frame buffer _ _ _ _ _ hu
  · cases h
    exact ⟨rfl, rfl, rfl, rfl, rfl, rfl⟩

/-- Byte-at-a-time writing follows the reference segmentation: started with
`sendBuffer[0 .. sendBufferIndex)` pending, the successive one-byte writes
send exactly the reference segments and leave the reference remainder
buffered. -/
theorem writeEach_segments : ∀ (bs : List Byte) (s : UARTService),
    s.ble.connected = true →
    s.sendBuffer.length = BLE_UART_SERVICE_MAX_DATA_LEN →
    s.sendBufferIndex < BLE_UART_SERVICE_MAX_DATA_LEN →
    ∃ t, writeEach s bs = .ok t ∧
      t.ble.sent = s.ble.sent
        ++ (referenceSegments (s.sendBuffer.take s.sendBufferIndex) bs).1.map
            (fun p => ⟨s.getRXCharacteristicHandle, p⟩) ∧
      t.sendBuffer.take t.sendBufferIndex
        = (referenceSegments (s.sendBuffer.take s.sendBufferIndex) bs).2 := by
  intro bs
  induction bs with
  | nil =>
    intro s _ _ _
    exact ⟨s, rfl, by simp [referenceSegments], by simp [referenceSegments]⟩
  | cons b bs ih =>
    intro s hc hsb hk
    have hw := write_short s [b] hc hsb (by simp) (by simp only [List.length_singleton]; omega)
    simp only [List.length_singleton, List.getLast?_singleton, Option.some.injEq] at hw
    have hpre : (s.sendBuffer.take s.sendBufferIndex).length = s.sendBufferIndex := by
      rw [List.length_take]; omega
    have hlen : (s.sendBuffer.take s.sendBufferIndex ++ [b]
        ++ s.sendBuffer.drop (s.sendBufferIndex + 1)).length
        = BLE_UART_SERVICE_MAX_DATA_LEN := by
      simp only [List.length_append, hpre, List.length_singleton, List.length_drop]
      omega
    rw [writeEach, hw, referenceSegments, hpre]
    by_cases hcond : s.sendBufferIndex + 1 = BLE_UART_SERVICE_MAX_DATA_LEN ∨ b = 10
    · have hcond2 : b = 10 ∨ s.sendBufferIndex + 1 = BLE_UART_SERVICE_MAX_DATA_LEN :=
        hcond.symm
      rw [if_pos hcond, if_pos hcond2]
      obtain ⟨t, ht, hsent, htake⟩ := ih
        { s with
          sendBuffer := s.sendBuffer.take s.sendBufferIndex ++ [b]
            ++ s.sendBuffer.drop (s.sendBufferIndex + 1)
          sendBufferIndex := 0
          ble := { s.ble with sent := s.ble.sent ++ [⟨s.getRXCharacteristicHandle,
            s.sendBuffer.take s.sendBufferIndex ++ [b]⟩] } }
        hc hlen (by rw [N_eq]; simp only; omega)
      refine ⟨t, ht, ?_, ?_⟩
      · rw [hsent]
        simp only [List.take_zero, List.map_cons, List.append_assoc, List.singleton_append,
          getRXCharacteristicHandle]
      · rw [htake]
        simp only [List.take_zero]
    · have hcond2 : ¬(b = 10 ∨ s.sendBufferIndex + 1 = BLE_UART_SERVICE_MAX_DATA_LEN) :=
        fun h => hcond h.symm
      rw [if_neg hcond, if_neg hcond2]
      have htk : (s.sendBuffer.take s.sendBufferIndex ++ [b]
          ++ s.sendBuffer.drop (s.sendBufferIndex + 1)).take (s.sendBufferIndex + 1)
          = s.sendBuffer.take s.sendBufferIndex ++ [b] := by
        rw [List.take_append_eq_append_take]
        simp [hpre]
      obtain ⟨t, ht, hsent, htake⟩ := ih
        { s with
          sendBuffer := s.sendBuffer.take s.sendBufferIndex ++ [b]
            ++ s.sendBuffer.drop (s.sendBufferIndex + 1)
          sendBufferIndex := s.sendBufferIndex + 1 }
        hc hlen (by simp only; omega)
      simp only [htk] at hsent htake
      exact ⟨t, ht, hsent, htake⟩

/-- The step of `writeLoop_step`, written with `buffered` and `flushed`. -/
theorem writeLoop_succ (buffer : List Byte) (fuel : Nat) (s : UARTService) (L bi n : Nat)
    (hsb : s.sendBuffer.length = BLE_UART_SERVICE_MAX_DATA_LEN)
    (hk : s.sendBufferIndex < BLE_UART_SERVICE_MAX_DATA_LEN)
    (hL : 0 < L) (hsrc : bi + L ≤ buffer.length)
    (hn : n = min L (BLE_UART_SERVICE_MAX_DATA_LEN - s.sendBufferIndex)) :
    writeLoop buffer (fuel + 1) s L bi =
      writeLoop buffer fuel
        (if s.sendBufferIndex + n = BLE_UART_SERVICE_MAX_DATA_LEN
            ∨ ((buffer.drop bi).take n).getLast? = some 10 then
          flushed s ((buffer.drop bi).take n)
        else buffered s ((buffer.drop bi).take n))
        (L - n) (bi + n) := by
  have hchunk : ((buffer.drop bi).take n).length = n := by
    rw [List.length_take, List.length_drop]; omega
  rw [writeLoop_step buffer fuel s L bi hsb hk hL hsrc, ← hn]
  unfold flushed buffered
  rw [hchunk]
  split <;> rfl

theorem buffered_buffered (s : UARTService) (a c : List Byte)
    (hfit : s.sendBufferIndex + a.length + c.length ≤ s.sendBuffer.length) :
    buffered (buffered s a) c = buffered s (a ++ c) := by
  have hpre : (s.sendBuffer.take s.sendBufferIndex).length = s.sendBufferIndex := by
    rw [List.length_take]; omega
  have h1 : (s.sendBuffer.take s.sendBufferIndex ++ a
      ++ s.sendBuffer.drop (s.sendBufferIndex + a.length)).take (s.sendBufferIndex + a.length)
      = s.sendBuffer.take s.sendBufferIndex ++ a := by
    rw [List.take_append_eq_append_take]
    simp [hpre]
  have h2 : (s.sendBuffer.take s.sendBufferIndex ++ a
      ++ s.sendBuffer.drop (s.sendBufferIndex + a.length)).drop
        (s.sendBufferIndex + a.length + c.length)
      = s.sendBuffer.drop (s.sendBufferIndex + a.length + c.length) := by
    rw [List.drop_append_eq_append_drop, List.drop_eq_nil_of_le (by simp [hpre])]
    simp only [List.length_append, hpre, List.nil_append, List.drop_drop]
    congr 1
    omega
  unfold buffered
  simp only [List.length_append, List.append_assoc, Nat.add_assoc] at h1 h2 ⊢
  simp only [h1, h2, List.append_assoc]

theorem flushed_buffered (s : UARTService) (a c : List Byte)
    (hfit : s.sendBufferIndex + a.length + c.length ≤ s.sendBuffer.length) :
    flushed (buffered s a) c = flushed s (a ++ c) := by
  have hpre : (s.sendBuffer.take s.sendBufferIndex).length = s.sendBufferIndex := by
    rw [List.length_take]; omega
  have h1 : (s.sendBuffer.take s.sendBufferIndex ++ a
      ++ s.sendBuffer.drop (s.sendBufferIndex + a.length)).take (s.sendBufferIndex + a.length)
      = s.sendBuffer.take s.sendBufferIndex ++ a := by
    rw [List.take_append_eq_append_take]
    simp [hpre]
  have h2 : (s.sendBuffer.take s.sendBufferIndex ++ a
      ++ s.sendBuffer.drop (s.sendBufferIndex + a.length)).drop
        (s.sendBufferIndex + a.length + c.length)
      = s.sendBuffer.drop (s.sendBufferIndex + a.length + c.length) := by
    rw [List.drop_append_eq_append_drop, List.drop_eq_nil_of_le (by simp [hpre])]
    simp only [List.length_append, hpre, List.nil_append, List.drop_drop]
    congr 1
    omega
  unfold flushed buffered
  simp only [List.length_append, List.append_assoc, Nat.add_assoc,
    getRXCharacteristicHandle] at h1 h2 ⊢
  simp only [h1, h2, List.append_assoc]

/-- After one iteration from a state inside the capacity invariant the state
is inside it again, whichever branch was taken. -/
theorem step_state_inv (s : UARTService) (chunk : List Byte) (P : Prop) [Decidable P]
    (hsb : s.sendBuffer.length = BLE_UART_SERVICE_MAX_DATA_LEN)
    (hfit : s.sendBufferIndex + chunk.length ≤ BLE_UART_SERVICE_MAX_DATA_LEN) :
    (if s.sendBufferIndex + chunk.length = BLE_UART_SERVICE_MAX_DATA_LEN ∨ P then
        flushed s chunk else buffered s chunk).sendBuffer.length
      = BLE_UART_SERVICE_MAX_DATA_LEN ∧
    (if s.sendBufferIndex + chunk.length = BLE_UART_SERVICE_MAX_DATA_LEN ∨ P then
        flushed s chunk else buffered s chunk).sendBufferIndex
      < BLE_UART_SERVICE_MAX_DATA_LEN := by
  have hlen : (s.sendBuffer.take s.sendBufferIndex ++ chunk
      ++ s.sendBuffer.drop (s.sendBufferIndex + chunk.length)).length
      = BLE_UART_SERVICE_MAX_DATA_LEN := by
    simp only [List.length_append, List.length_take, List.length_drop]
    omega
  split
  · exact ⟨hlen, by rw [N_eq]; simp [flushed]⟩
  · rename_i hcond
    refine ⟨hlen, ?_⟩
    have : s.sendBufferIndex + chunk.length ≠ BLE_UART_SERVICE_MAX_DATA_LEN :=
      fun h => hcond (Or.inl h)
    simp only [buffered]
    omega

/-- The loop of `write` depends on its input only through the `L` bytes it
still has to consume, and (with at least `L` units) not on the fuel. -/
theorem writeLoop_congr (buf buf' : List Byte) :
    ∀ (f f' : Nat) (s : UARTService) (L bi bi' : Nat),
      s.sendBuffer.length = BLE_UART_SERVICE_MAX_DATA_LEN →
      s.sendBufferIndex < BLE_UART_SERVICE_MAX_DATA_LEN →
      bi + L ≤ buf.length → bi' + L ≤ buf'.length →
      (buf.drop bi).take L = (buf'.drop bi').take L →
      L ≤ f → L ≤ f' →
      writeLoop buf f s L bi = writeLoop buf' f' s L bi' := by
  intro f
  induction f with
  | zero =>
    intro f' s L bi bi' _ _ _ _ _ hf _
    have hL : L = 0 := by omega
    subst hL
    rw [writeLoop_zero_length, writeLoop_zero_length]
  | succ f ih =>
    intro f' s L bi bi' hsb hk hsrc hsrc' heq hf hf'
    by_cases hL : L = 0
    · subst hL
      rw [writeLoop_zero_length, writeLoop_zero_length]
    · obtain ⟨f'', rfl⟩ : ∃ f'', f' = f'' + 1 := ⟨f' - 1, by omega⟩
      have h1 := writeLoop_succ buf f s L bi _ hsb hk (by omega) hsrc rfl
      have h2 := writeLoop_succ buf' f'' s L bi' _ hsb hk (by omega) hsrc' rfl
      have hn : min L (BLE_UART_SERVICE_MAX_DATA_LEN - s.sendBufferIndex) ≤ L :=
        Nat.min_le_left _ _
      have hn1 : 1 ≤ min L (BLE_UART_SERVICE_MAX_DATA_LEN - s.sendBufferIndex) := by omega
      have hn2 : s.sendBufferIndex + min L (BLE_UART_SERVICE_MAX_DATA_LEN - s.sendBufferIndex)
          ≤ BLE_UART_SERVICE_MAX_DATA_LEN := by omega
      generalize min L (BLE_UART_SERVICE_MAX_DATA_LEN - s.sendBufferIndex) = n
        at h1 h2 hn hn1 hn2
      have hchunk : (buf.drop bi).take n = (buf'.drop bi').take n := by
        have h := congrArg (List.take n) heq
        rwa [List.take_take, List.take_take, Nat.min_eq_left hn] at h
      have hlen : ((buf'.drop bi').take n).length = n := by
        rw [List.length_take, List.length_drop]; omega
      rw [hchunk] at h1
      have hinv := step_state_inv s ((buf'.drop bi').take n)
        (((buf'.drop bi').take n).getLast? = some 10) hsb (by rw [hlen]; exact hn2)
      rw [hlen] at hinv
      rw [h1, h2]
      apply ih _ _ _ _ _ hinv.1 hinv.2 (by omega) (by omega) ?_ (by omega) (by omega)
      have h := congrArg (List.drop n) heq
      rw [List.drop_take, List.drop_take, List.drop_drop, List.drop_drop] at h
      exact h

/-- Splitting the input of the loop of `write`: when `a` does not end in
`'\n'`, running the loop on `a` and then on `b` is running it on `a ++ b`. -/
theorem writeLoop_append (b : List Byte) (f2 : Nat) (hf2 : b.length ≤ f2) :
    ∀ (m : Nat) (s : UARTService) (a : List Byte) (f1 f3 : Nat),
      a.length ≤ m →
      s.sendBuffer.length = BLE_UART_SERVICE_MAX_DATA_LEN →
      s.sendBufferIndex < BLE_UART_SERVICE_MAX_DATA_LEN →
      a.getLast? ≠ some 10 →
      a.length ≤ f1 → a.length + b.length ≤ f3 →
      ∃ t, writeLoop a f1 s a.length 0 = .ok t ∧
        t.sendBuffer.length = BLE_UART_SERVICE_MAX_DATA_LEN ∧
        t.sendBufferIndex < BLE_UART_SERVICE_MAX_DATA_LEN ∧
        writeLoop (a ++ b) f3 s (a.length + b.length) 0 = writeLoop b f2 t b.length 0 := by
  have hnil : ∀ (s : UARTService) (f1 f3 : Nat),
      s.sendBuffer.length = BLE_UART_SERVICE_MAX_DATA_LEN →
      s.sendBufferIndex < BLE_UART_SERVICE_MAX_DATA_LEN →
      b.length ≤ f3 →
      ∃ t, writeLoop [] f1 s 0 0 = .ok t ∧
        t.sendBuffer.length = BLE_UART_SERVICE_MAX_DATA_LEN ∧
        t.sendBufferIndex < BLE_UART_SERVICE_MAX_DATA_LEN ∧
        writeLoop ([] ++ b) f3 s (0 + b.length) 0 = writeLoop b f2 t b.length 0 := by
    intro s f1 f3 hsb hk hf3
    refine ⟨s, writeLoop_zero_length _ _ _ _, hsb, hk, ?_⟩
    rw [List.nil_append, Nat.zero_add]
    exact writeLoop_congr b b f3 f2 s b.length 0 0 hsb hk (by omega) (by omega) rfl hf3 hf2
  intro m
  induction m with
  | zero =>
    intro s a f1 f3 hm hsb hk _ _ hf3
    have ha : a = [] := List.length_eq_zero.mp (by omega)
    subst ha
    exact hnil s f1 f3 hsb hk (by simpa using hf3)
  | succ m ih =>
    intro s a f1 f3 hm hsb hk hlast hf1 hf3
    by_cases ha : a = []
    · subst ha
      exact hnil s f1 f3 hsb hk (by simpa using hf3)
    · have hpos : 0 < a.length := List.length_pos.mpr ha
      obtain ⟨f1', rfl⟩ : ∃ f1', f1 = f1' + 1 := ⟨f1 - 1, by omega⟩
      obtain ⟨f3', rfl⟩ : ∃ f3', f3 = f3' + 1 := ⟨f3 - 1, by omega⟩
      rw [N_eq] at hk
      by_cases hfull : 20 - s.sendBufferIndex ≤ a.length
      · have h1 := writeLoop_succ a f1' s a.length 0 (20 - s.sendBufferIndex) hsb
          (by rw [N_eq]; exact hk) hpos (by omega) (by rw [N_eq]; omega)
        have h3 := writeLoop_succ (a ++ b) f3' s (a.length + b.length) 0
          (20 - s.sendBufferIndex) hsb (by rw [N_eq]; exact hk) (by omega)
          (by rw [List.length_append]; omega) (by rw [N_eq]; omega)
        simp only [List.drop_zero, Nat.zero_add] at h1 h3
        rw [List.take_append_of_le_length hfull] at h3
        have hcond : s.sendBufferIndex + (20 - s.sendBufferIndex)
            = BLE_UART_SERVICE_MAX_DATA_LEN := by rw [N_eq]; omega
        rw [if_pos (Or.inl hcond)] at h1 h3
        have hclen : (a.take (20 - s.sendBufferIndex)).length = 20 - s.sendBufferIndex := by
          rw [List.length_take]; omega
        have hinv := step_state_inv s (a.take (20 - s.sendBufferIndex)) False hsb
          (by rw [hclen, N_eq]; omega)
        rw [if_pos (Or.inl (by rw [hclen]; exact hcond))] at hinv
        have hlast' : (a.drop (20 - s.sendBufferIndex)).getLast? ≠ some 10 := by
          rw [List.getLast?_drop]
          split
          · simp
          · exact hlast
        have hdl : (a.drop (20 - s.sendBufferIndex)).length
            = a.length - (20 - s.sendBufferIndex) := List.length_drop _ _
        obtain ⟨t, ht, htsb, htk, hcont⟩ := ih (flushed s (a.take (20 - s.sendBufferIndex)))
          (a.drop (20 - s.sendBufferIndex)) f1' f3' (by omega) hinv.1 hinv.2 hlast'
          (by omega) (by omega)
        refine ⟨t, ?_, htsb, htk, ?_⟩
        · rw [h1, ← ht, hdl]
          exact writeLoop_congr a (a.drop (20 - s.sendBufferIndex)) f1' f1' _ _ _ 0
            hinv.1 hinv.2 (by omega) (by omega) (by simp) (by omega) (by omega)
        · have hL : a.length + b.length - (20 - s.sendBufferIndex)
              = (a.drop (20 - s.sendBufferIndex)).length + b.length := by omega
          rw [h3, ← hcont, hL]
          exact writeLoop_congr (a ++ b) (a.drop (20 - s.sendBufferIndex) ++ b) f3' f3' _ _ _ 0
            hinv.1 hinv.2 (by rw [List.length_append]; omega)
            (by rw [List.length_append]; omega)
            (by rw [List.drop_append_of_le_length hfull]; simp) (by omega) (by omega)
      · have hk' : s.sendBufferIndex < BLE_UART_SERVICE_MAX_DATA_LEN := by rw [N_eq]; exact hk
        have h1 := writeLoop_succ a f1' s a.length 0 a.length hsb hk' hpos (by omega)
          (by rw [N_eq]; omega)
        simp only [List.drop_zero, Nat.zero_add, List.take_length, Nat.sub_self,
          writeLoop_zero_length] at h1
        have hc1 : ¬(s.sendBufferIndex + a.length = BLE_UART_SERVICE_MAX_DATA_LEN
            ∨ a.getLast? = some 10) := by
          rintro (h | h)
          · rw [N_eq] at h; omega
          · exact hlast h
        rw [if_neg hc1] at h1
        have hinv1 := step_state_inv s a (a.getLast? = some 10) hsb (by rw [N_eq]; omega)
        rw [if_neg hc1] at hinv1
        refine ⟨buffered s a, h1, hinv1.1, hinv1.2, ?_⟩
        by_cases hb : b = []
        · subst hb
          simp only [List.append_nil, List.length_nil, Nat.add_zero, writeLoop_zero_length]
          rw [← h1]
          exact writeLoop_congr a a (f3' + 1) (f1' + 1) s a.length 0 0 hsb hk' (by omega)
            (by omega) rfl (by simpa using hf3) hf1
        · have hbpos : 0 < b.length := List.length_pos.mpr hb
          obtain ⟨f2', rfl⟩ : ∃ f2', f2 = f2' + 1 := ⟨f2 - 1, by omega⟩
          have hsbi1 : (buffered s a).sendBufferIndex = s.sendBufferIndex + a.length := rfl
          obtain ⟨mb, hmb⟩ : ∃ mb, mb = min b.length (20 - (s.sendBufferIndex + a.length)) :=
            ⟨_, rfl⟩
          have hmb1 : 1 ≤ mb := by omega
          have hmb2 : mb ≤ b.length := by omega
          have hmb3 : s.sendBufferIndex + a.length + mb ≤ 20 := by omega
          have h3 := writeLoop_succ (a ++ b) f3' s (a.length + b.length) 0 (a.length + mb)
            hsb hk' (by omega) (by rw [List.length_append]; omega) (by rw [N_eq]; omega)
          have h2 := writeLoop_succ b f2' (buffered s a) b.length 0 mb hinv1.1 hinv1.2 hbpos
            (by omega) (by rw [N_eq, hsbi1]; exact hmb)
          simp only [List.drop_zero, Nat.zero_add] at h3 h2
          have htl : (b.take mb).length = mb := by rw [List.length_take]; omega
          have hcne : b.take mb ≠ [] := by
            intro h; rw [h] at htl; simp at htl; omega
          have hfit : s.sendBufferIndex + a.length + (b.take mb).length
              ≤ s.sendBuffer.length := by rw [htl, hsb, N_eq]; exact hmb3
          rw [List.take_append, List.getLast?_append_of_ne_nil a hcne] at h3
          rw [flushed_buffered s a _ hfit, buffered_buffered s a _ hfit, hsbi1,
            Nat.add_assoc] at h2
          have hL : a.length + b.length - (a.length + mb) = b.length - mb := by omega
          have hinv := step_state_inv s (a ++ b.take mb) ((b.take mb).getLast? = some 10) hsb
            (by rw [List.length_append, htl, N_eq]; omega)
          rw [List.length_append, htl] at hinv
          rw [h3, h2, hL]
          exact writeLoop_congr (a ++ b) b f3' f2' _ _ _ mb hinv.1 hinv.2
            (by rw [List.length_append]; omega) (by omega)
            (by rw [List.drop_append]) (by omega) (by omega)

/-- Splitting the input of the loop of `write` at a fill boundary: when the
last byte of `a` is the one that fills the send buffer, running the loop on
`a` and then on `b` is running it on `a ++ b`. -/
theorem writeLoop_append_full (b : List Byte) (f2 : Nat) (hf2 : b.length ≤ f2) :
    ∀ (m : Nat) (s : UARTService) (a : List Byte) (f1 f3 : Nat),
      a.length ≤ m →
      s.sendBuffer.length = BLE_UART_SERVICE_MAX_DATA_LEN →
      s.sendBufferIndex < BLE_UART_SERVICE_MAX_DATA_LEN →
      (s.sendBufferIndex + a.length) % BLE_UART_SERVICE_MAX_DATA_LEN = 0 →
      a.length ≤ f1 → a.length + b.length ≤ f3 →
      ∃ t, writeLoop a f1 s a.length 0 = .ok t ∧
        t.sendBuffer.length = BLE_UART_SERVICE_MAX_DATA_LEN ∧
        t.sendBufferIndex < BLE_UART_SERVICE_MAX_DATA_LEN ∧
        writeLoop (a ++ b) f3 s (a.length + b.length) 0 = writeLoop b f2 t b.length 0 := by
  have hnil : ∀ (s : UARTService) (f1 f3 : Nat),
      s.sendBuffer.length = BLE_UART_SERVICE_MAX_DATA_LEN →
      s.sendBufferIndex < BLE_UART_SERVICE_MAX_DATA_LEN →
      b.length ≤ f3 →
      ∃ t, writeLoop [] f1 s 0 0 = .ok t ∧
        t.sendBuffer.length = BLE_UART_SERVICE_MAX_DATA_LEN ∧
        t.sendBufferIndex < BLE_UART_SERVICE_MAX_DATA_LEN ∧
        writeLoop ([] ++ b) f3 s (0 + b.length) 0 = writeLoop b f2 t b.length 0 := by
    intro s f1 f3 hsb hk hf3
    refine ⟨s, writeLoop_zero_length _ _ _ _, hsb, hk, ?_⟩
    rw [List.nil_append, Nat.zero_add]
    exact writeLoop_congr b b f3 f2 s b.length 0 0 hsb hk (by omega) (by omega) rfl hf3 hf2
  intro m
  induction m with
  | zero =>
    intro s a f1 f3 hm hsb hk _ _ hf3
    have ha : a = [] := List.length_eq_zero.mp (by omega)
    subst ha
    exact hnil s f1 f3 hsb hk (by simpa using hf3)
  | succ m ih =>
    intro s a f1 f3 hm hsb hk hbd hf1 hf3
    by_cases ha : a = []
    · subst ha
      exact hnil s f1 f3 hsb hk (by simpa using hf3)
    · have hpos : 0 < a.length := List.length_pos.mpr ha
      obtain ⟨f1', rfl⟩ : ∃ f1', f1 = f1' + 1 := ⟨f1 - 1, by omega⟩
      obtain ⟨f3', rfl⟩ : ∃ f3', f3 = f3' + 1 := ⟨f3 - 1, by omega⟩
      rw [N_eq] at hk hbd
      have hfull : 20 - s.sendBufferIndex ≤ a.length := by omega
      have h1 := writeLoop_succ a f1' s a.length 0 (20 - s.sendBufferIndex) hsb
        (by rw [N_eq]; exact hk) hpos (by omega) (by rw [N_eq]; omega)
      have h3 := writeLoop_succ (a ++ b) f3' s (a.length + b.length) 0
        (20 - s.sendBufferIndex) hsb (by rw [N_eq]; exact hk) (by omega)
        (by rw [List.length_append]; omega) (by rw [N_eq]; omega)
      simp only [List.drop_zero, Nat.zero_add] at h1 h3
      rw [List.take_append_of_le_length hfull] at h3
      have hcond : s.sendBufferIndex + (20 - s.sendBufferIndex)
          = BLE_UART_SERVICE_MAX_DATA_LEN := by rw [N_eq]; omega
      rw [if_pos (Or.inl hcond)] at h1 h3
      have hclen : (a.take (20 - s.sendBufferIndex)).length = 20 - s.sendBufferIndex := by
        rw [List.length_take]; omega
      have hinv := step_state_inv s (a.take (20 - s.sendBufferIndex)) False hsb
        (by rw [hclen, N_eq]; omega)
      rw [if_pos (Or.inl (by rw [hclen]; exact hcond))] at hinv
      have hdl : (a.drop (20 - s.sendBufferIndex)).length
          = a.length - (20 - s.sendBufferIndex) := List.length_drop _ _
      have hbd' : ((flushed s (a.take (20 - s.sendBufferIndex))).sendBufferIndex
          + (a.drop (20 - s.sendBufferIndex)).length) % BLE_UART_SERVICE_MAX_DATA_LEN = 0 := by
        have h0 : (flushed s (a.take (20 - s.sendBufferIndex))).sendBufferIndex = 0 := rfl
        rw [h0, hdl, N_eq]
        omega
      obtain ⟨t, ht, htsb, htk, hcont⟩ := ih (flushed s (a.take (20 - s.sendBufferIndex)))
        (a.drop (20 - s.sendBufferIndex)) f1' f3' (by omega) hinv.1 hinv.2 hbd'
        (by omega) (by omega)
      refine ⟨t, ?_, htsb, htk, ?_⟩
      · rw [h1, ← ht, hdl]
        exact writeLoop_congr a (a.drop (20 - s.sendBufferIndex)) f1' f1' _ _ _ 0
          hinv.1 hinv.2 (by omega) (by omega) (by simp) (by omega) (by omega)
      · have hL : a.length + b.length - (20 - s.sendBufferIndex)
            = (a.drop (20 - s.sendBufferIndex)).length + b.length := by omega
        rw [h3, ← hcont, hL]
        exact writeLoop_congr (a ++ b) (a.drop (20 - s.sendBufferIndex) ++ b) f3' f3' _ _ _ 0
          hinv.1 hinv.2 (by rw [List.length_append]; omega)
          (by rw [List.length_append]; omega)
          (by rw [List.drop_append_of_le_length hfull]; simp) (by omega) (by omega)

/-- Input that ends in `'\n'` leaves the send buffer empty: the last
iteration of the loop of `write` flushes. -/
theorem writeLoop_newline_end :
    ∀ (m : Nat) (s : UARTService) (a : List Byte) (f : Nat),
      a.length ≤ m →
      s.sendBuffer.length = BLE_UART_SERVICE_MAX_DATA_LEN →
      s.sendBufferIndex < BLE_UART_SERVICE_MAX_DATA_LEN →
      a.getLast? = some 10 → a.length ≤ f →
      ∃ t, writeLoop a f s a.length 0 = .ok t ∧ t.sendBufferIndex = 0 := by
  intro m
  induction m with
  | zero =>
    intro s a f hm _ _ hlast _
    have ha : a = [] := List.length_eq_zero.mp (by omega)
    subst ha
    simp at hlast
  | succ m ih =>
    intro s a f hm hsb hk hlast hf
    have ha : a ≠ [] := by
      intro h; subst h; simp at hlast
    have hpos : 0 < a.length := List.length_pos.mpr ha
    obtain ⟨f', rfl⟩ : ∃ f', f = f' + 1 := ⟨f - 1, by omega⟩
    rw [N_eq] at hk
    have hk' : s.sendBufferIndex < BLE_UART_SERVICE_MAX_DATA_LEN := by rw [N_eq]; exact hk
    by_cases hfull : 20 - s.sendBufferIndex < a.length
    · have h1 := writeLoop_succ a f' s a.length 0 (20 - s.sendBufferIndex) hsb hk' hpos
        (by omega) (by rw [N_eq]; omega)
      simp only [List.drop_zero, Nat.zero_add] at h1
      have hcond : s.sendBufferIndex + (20 - s.sendBufferIndex)
          = BLE_UART_SERVICE_MAX_DATA_LEN := by rw [N_eq]; omega
      rw [if_pos (Or.inl hcond)] at h1
      have hclen : (a.take (20 - s.sendBufferIndex)).length = 20 - s.sendBufferIndex := by
        rw [List.length_take]; omega
      have hinv := step_state_inv s (a.take (20 - s.sendBufferIndex)) False hsb
        (by rw [hclen, N_eq]; omega)
      rw [if_pos (Or.inl (by rw [hclen]; exact hcond))] at hinv
      have hdl : (a.drop (20 - s.sendBufferIndex)).length
          = a.length - (20 - s.sendBufferIndex) := List.length_drop _ _
      have hlast' : (a.drop (20 - s.sendBufferIndex)).getLast? = some 10 := by
        rw [List.getLast?_drop, if_neg (by omega)]
        exact hlast
      obtain ⟨t, ht, ht0⟩ := ih (flushed s (a.take (20 - s.sendBufferIndex)))
        (a.drop (20 - s.sendBufferIndex)) f' (by omega) hinv.1 hinv.2 hlast' (by omega)
      refine ⟨t, ?_, ht0⟩
      rw [h1, ← ht, hdl]
      exact writeLoop_congr a (a.drop (20 - s.sendBufferIndex)) f' f' _ _ _ 0
        hinv.1 hinv.2 (by omega) (by omega) (by simp) (by omega) (by omega)
    · have h1 := writeLoop_succ a f' s a.length 0 a.length hsb hk' hpos (by omega)
        (by rw [N_eq]; omega)
      simp only [List.drop_zero, Nat.zero_add, List.take_length, Nat.sub_self,
        writeLoop_zero_length] at h1
      rw [if_pos (Or.inr hlast)] at h1
      exact ⟨_, h1, rfl⟩

/-! ## The properties of the specification -/

/-- C1: for every bridge state inside the capacity invariant (connected or
not, `sendBufferIndex < N`) and every input of `length` bytes,
`write(buffer, length)` ends normally and returns exactly `length`. -/
theorem write_returns_length (s : UARTService) (buffer : List Byte) (length : Nat)
    (hsb : s.sendBuffer.length = BLE_UART_SERVICE_MAX_DATA_LEN)
    (hk : s.sendBufferIndex < BLE_UART_SERVICE_MAX_DATA_LEN)
    (hsrc : length ≤ buffer.length) :
    ∃ t, write s buffer length = .ok ((length : Int), t) := by
  unfold write
  by_cases hc : s.ble.connected = true
  · obtain ⟨t, ht, _⟩ := writeLoop_spec buffer (length + 1) s length 0 hsb hk
      (by omega) (by omega)
    exact ⟨t, by simp [hc, ht]⟩
  · exact ⟨s, by simp [hc]⟩

theorem write_returns_length_witness :
    (new ⟨true, []⟩ 1 2).sendBuffer.length = BLE_UART_SERVICE_MAX_DATA_LEN ∧
    (new ⟨true, []⟩ 1 2).sendBufferIndex < BLE_UART_SERVICE_MAX_DATA_LEN ∧
    2 ≤ ([104, 105] : List Byte).length ∧
    ∃ t, write (new ⟨true, []⟩ 1 2) [104, 105] 2 = .ok ((2 : Int), t) :=
  ⟨by decide, by decide, by decide,
    write_returns_length (new ⟨true, []⟩ 1 2) [104, 105] 2 (by decide) (by decide) (by decide)⟩

/-- C2 (counterexample): connected, freshly constructed, the 3-byte write
`"a\nb"` has `'\n'` at position 1 and yet sends no notification: all three
bytes stay in the send buffer and `sendBufferIndex` is 3, so no payload ends
at byte 1 and the buffer is not empty after it. -/
theorem write_embedded_newline_not_flushed :
    ([97, 10, 98] : List Byte)[1]? = some 10 ∧
    ∃ t, write (new ⟨true, []⟩ 1 2) [97, 10, 98] 3 = .ok ((3 : Int), t) ∧
      t.ble.sent = [] ∧ t.sendBufferIndex = 3 ∧ t.sendBuffer.take 3 = [97, 10, 98] :=
  ⟨rfl, _, rfl, rfl, rfl, rfl⟩

/-- C2 (amended): connected, `sendBufferIndex < N`. When input byte `i` is
`0x0A` and is the last byte of a copied chunk, that is, the last byte of the
input or the byte that fills the send buffer, `write` sends a notification
right after buffering it: the write of `x` is the write of `x[0 .. i]`
followed by the write of the rest; after the first part the notifications
sent so far, concatenated, are the bytes buffered before followed by
`x[0 .. i]`, the last payload ends in that `0x0A`, and `sendBufferIndex` is
0 before any later byte is buffered. -/
theorem write_flushes_newline_at_chunk_end (s : UARTService) (x : List Byte) (i : Nat)
    (hc : s.ble.connected = true)
    (hsb : s.sendBuffer.length = BLE_UART_SERVICE_MAX_DATA_LEN)
    (hk : s.sendBufferIndex < BLE_UART_SERVICE_MAX_DATA_LEN)
    (hnl : x[i]? = some 10)
    (hend : i + 1 = x.length
      ∨ (s.sendBufferIndex + (i + 1)) % BLE_UART_SERVICE_MAX_DATA_LEN = 0) :
    ∃ (t1 t2 : UARTService) (init : List Notification) (last : Notification),
      write s (x.take (i + 1)) (i + 1) = .ok (((i + 1 : Nat) : Int), t1) ∧
      t1.ble.sent = s.ble.sent ++ (init ++ [last]) ∧
      ((init ++ [last]).map Notification.payload).flatten
        = s.sendBuffer.take s.sendBufferIndex ++ x.take (i + 1) ∧
      last.payload.getLast? = some 10 ∧
      t1.sendBufferIndex = 0 ∧
      write t1 (x.drop (i + 1)) (x.length - (i + 1))
        = .ok (((x.length - (i + 1) : Nat) : Int), t2) ∧
      write s x x.length = .ok ((x.length : Int), t2) := by
  have hi : i < x.length := by
    by_contra h
    rw [List.getElem?_eq_none (by omega)] at hnl
    cases hnl
  obtain ⟨a, ha⟩ : ∃ a, a = x.take (i + 1) := ⟨_, rfl⟩
  obtain ⟨b, hb⟩ : ∃ b, b = x.drop (i + 1) := ⟨_, rfl⟩
  have hal : a.length = i + 1 := by rw [ha, List.length_take]; omega
  have hbl : b.length = x.length - (i + 1) := by rw [hb, List.length_drop]
  have hab : a ++ b = x := by rw [ha, hb, List.take_append_drop]
  have hane : a ≠ [] := by
    intro h; rw [h] at hal; simp at hal
  have hlast : a.getLast? = some 10 := by
    rw [List.getLast?_eq_getElem?, hal, Nat.add_sub_cancel, ha,
      List.getElem?_take_of_lt (Nat.lt_succ_self i)]
    exact hnl
  obtain ⟨t1, ht1, ht1sb, ht1k, hfr, out, hsent, hbound, hstream⟩ :=
    writeLoop_spec a (a.length + 1) s a.length 0 hsb hk (by omega) (by omega)
  obtain ⟨t1', ht1', h0'⟩ := writeLoop_newline_end a.length s a (a.length + 1)
    (Nat.le_refl _) hsb hk hlast (by omega)
  have h0 : t1.sendBufferIndex = 0 := by
    rw [ht1] at ht1'
    cases ht1'
    exact h0'
  rw [h0, List.take_zero, List.append_nil, List.drop_zero, List.take_length] at hstream
  have hone : out ≠ [] := by
    intro h
    rw [h] at hstream
    have := congrArg List.length hstream
    simp only [List.flatten_nil, List.length_nil, List.length_append] at this
    omega
  have hsplit : out.dropLast ++ [out.getLast hone] = out := List.dropLast_append_getLast hone
  have hpne : out.getLast hone ≠ [] := by
    have h := (hbound _ (List.getLast_mem hone)).1
    intro hnil
    rw [hnil] at h
    simp at h
  have hplast : (out.getLast hone).getLast? = some 10 := by
    have h := congrArg List.getLast? hstream
    rw [← hsplit, List.flatten_append, List.flatten_singleton,
      List.getLast?_append_of_ne_nil _ hpne, List.getLast?_append_of_ne_nil _ hane] at h
    rw [h, hlast]
  have hmap : (out.map (fun p => (⟨s.getRXCharacteristicHandle, p⟩ : Notification))).map
      Notification.payload = out := by
    rw [List.map_map]
    exact List.map_id'' (fun _ => rfl) out
  have hc1 : t1.ble.connected = true := by rw [hfr.2.2.2.2.2, hc]
  obtain ⟨t2, ht2, _⟩ := writeLoop_spec b (b.length + 1) t1 b.length 0 ht1sb ht1k
    (by omega) (by omega)
  have hwhole : writeLoop x (x.length + 1) s x.length 0 = .ok t2 := by
    rcases hend with hend | hend
    · have hbnil : b = [] := List.length_eq_zero.mp (by omega)
      have hax : a = x := by rw [← hab, hbnil, List.append_nil]
      rw [hbnil, List.length_nil, writeLoop_zero_length] at ht2
      cases ht2
      rw [← hax]
      exact ht1
    · obtain ⟨t, ht, _, _, hcont⟩ := writeLoop_append_full b (b.length + 1) (by omega)
        a.length s a (a.length + 1) (x.length + 1) (Nat.le_refl _) hsb hk
        (by rw [hal]; exact hend) (by omega) (by rw [← hab, List.length_append]; omega)
      rw [ht1] at ht
      cases ht
      rw [hab, ← List.length_append, hab, ht2] at hcont
      exact hcont
  refine ⟨t1, t2, (out.dropLast).map (fun p => ⟨s.getRXCharacteristicHandle, p⟩),
    ⟨s.getRXCharacteristicHandle, out.getLast hone⟩, ?_, ?_, ?_, hplast, h0, ?_, ?_⟩
  · rw [← ha, ← hal]
    unfold write
    simp only []
    rw [if_pos hc, ht1]
  · rw [hsent, ← List.map_singleton, ← List.map_append, hsplit]
  · rw [← List.map_singleton (f := fun p => (⟨s.getRXCharacteristicHandle, p⟩ : Notification)),
      ← List.map_append, hsplit, hmap, hstream, ha]
  · rw [← hb, ← hbl]
    unfold write
    simp only []
    rw [if_pos hc1, ht2]
  · unfold write
    simp only []
    rw [if_pos hc, hwhole]

theorem write_flushes_newline_at_chunk_end_witness :
    ({ new ⟨true, []⟩ 1 2 with sendBufferIndex := 18 } : UARTService).ble.connected = true ∧
    ({ new ⟨true, []⟩ 1 2 with sendBufferIndex := 18 } : UARTService).sendBuffer.length
      = BLE_UART_SERVICE_MAX_DATA_LEN ∧
    ({ new ⟨true, []⟩ 1 2 with sendBufferIndex := 18 } : UARTService).sendBufferIndex
      < BLE_UART_SERVICE_MAX_DATA_LEN ∧
    ([97, 10, 98] : List Byte)[1]? = some 10 ∧
    (1 + 1 = ([97, 10, 98] : List Byte).length
      ∨ (({ new ⟨true, []⟩ 1 2 with sendBufferIndex := 18 } : UARTService).sendBufferIndex
          + (1 + 1)) % BLE_UART_SERVICE_MAX_DATA_LEN = 0) ∧
    ∃ (t1 t2 : UARTService) (init : List Notification) (last : Notification),
      write { new ⟨true, []⟩ 1 2 with sendBufferIndex := 18 } [97, 10] 2
        = .ok ((2 : Int), t1) ∧
      t1.ble.sent = init ++ [last] ∧
      last.payload.getLast? = some 10 ∧
      t1.sendBufferIndex = 0 ∧
      write t1 [98] 1 = .ok ((1 : Int), t2) ∧
      write { new ⟨true, []⟩ 1 2 with sendBufferIndex := 18 } [97, 10, 98] 3
        = .ok ((3 : Int), t2) :=
  have h := write_flushes_newline_at_chunk_end
    { new ⟨true, []⟩ 1 2 with sendBufferIndex := 18 } [97, 10, 98] 1 rfl
    (by decide) (by decide) (by decide) (Or.inr (by decide))
  ⟨rfl, by decide, by decide, by decide, Or.inr (by decide),
    h.elim fun t1 h1 => h1.elim fun t2 h2 => h2.elim fun init h3 => h3.elim fun last h4 =>
      ⟨t1, t2, init, last, h4.1, h4.2.1, h4.2.2.2.1, h4.2.2.2.2.1, h4.2.2.2.2.2.1,
        h4.2.2.2.2.2.2⟩⟩

/-- C3: connected, with `k = sendBufferIndex` bytes `p` already buffered, a
write of a non-empty `x` with `k + |x| ≤ N` whose last byte is `'\n'` calls
`updateCharacteristicValue` exactly once, with payload `p ++ x` of `k + |x|`
bytes, and leaves `sendBufferIndex = 0`. -/
theorem write_line_one_notification (s : UARTService) (x : List Byte)
    (hc : s.ble.connected = true)
    (hsb : s.sendBuffer.length = BLE_UART_SERVICE_MAX_DATA_LEN)
    (hx : x ≠ [])
    (hfit : s.sendBufferIndex + x.length ≤ BLE_UART_SERVICE_MAX_DATA_LEN)
    (hlast : x.getLast? = some 10) :
    ∃ t, write s x x.length = .ok ((x.length : Int), t) ∧
      t.ble.sent = s.ble.sent ++ [⟨s.getRXCharacteristicHandle,
        s.sendBuffer.take s.sendBufferIndex ++ x⟩] ∧
      (s.sendBuffer.take s.sendBufferIndex ++ x).length = s.sendBufferIndex + x.length ∧
      t.sendBufferIndex = 0 := by
  refine ⟨_, write_short s x hc hsb hx hfit, ?_, ?_, ?_⟩
  · simp [hlast]
  · rw [List.length_append, List.length_take]; omega
  · simp [hlast]

theorem write_line_one_notification_witness :
    (new ⟨true, []⟩ 1 2).ble.connected = true ∧
    (new ⟨true, []⟩ 1 2).sendBuffer.length = BLE_UART_SERVICE_MAX_DATA_LEN ∧
    ([104, 101, 108, 108, 111, 10] : List Byte) ≠ [] ∧
    (new ⟨true, []⟩ 1 2).sendBufferIndex + ([104, 101, 108, 108, 111, 10] : List Byte).length
      ≤ BLE_UART_SERVICE_MAX_DATA_LEN ∧
    ([104, 101, 108, 108, 111, 10] : List Byte).getLast? = some 10 ∧
    ∃ t, write (new ⟨true, []⟩ 1 2) [104, 101, 108, 108, 111, 10] 6 = .ok ((6 : Int), t) ∧
      t.ble.sent = [⟨2, [104, 101, 108, 108, 111, 10]⟩] ∧
      t.sendBufferIndex = 0 := by
  obtain ⟨t, h1, h2, _, h4⟩ := write_line_one_notification (new ⟨true, []⟩ 1 2)
    [104, 101, 108, 108, 111, 10] rfl (by decide) (by decide) (by decide) (by decide)
  exact ⟨rfl, by decide, by decide, by decide, by decide, t, h1, h2, h4⟩

/-- C4: connected and with an empty send buffer, a write of `x` without any
`'\n'` sends exactly `|x| / N` notifications, the `i`-th carrying the `N`
bytes `x[i*N .. (i+1)*N)`, in order; afterwards `sendBufferIndex` is
`|x| % N` and `sendBuffer[0 .. |x| % N)` holds the last `|x| % N` bytes of
`x`. -/
theorem write_full_chunks (s : UARTService) (x : List Byte)
    (hc : s.ble.connected = true)
    (hsb : s.sendBuffer.length = BLE_UART_SERVICE_MAX_DATA_LEN)
    (hk : s.sendBufferIndex = 0)
    (hnl : (10 : Byte) ∉ x) :
    ∃ t, write s x x.length = .ok ((x.length : Int), t) ∧
      t.ble.sent = s.ble.sent ++ (List.range (x.length / BLE_UART_SERVICE_MAX_DATA_LEN)).map
        (fun i => ⟨s.getRXCharacteristicHandle,
          (x.drop (i * BLE_UART_SERVICE_MAX_DATA_LEN)).take BLE_UART_SERVICE_MAX_DATA_LEN⟩) ∧
      (∀ i, i < x.length / BLE_UART_SERVICE_MAX_DATA_LEN →
        ((x.drop (i * BLE_UART_SERVICE_MAX_DATA_LEN)).take
          BLE_UART_SERVICE_MAX_DATA_LEN).length = BLE_UART_SERVICE_MAX_DATA_LEN) ∧
      t.sendBufferIndex = x.length % BLE_UART_SERVICE_MAX_DATA_LEN ∧
      t.sendBuffer.take (x.length % BLE_UART_SERVICE_MAX_DATA_LEN)
        = x.drop (x.length - x.length % BLE_UART_SERVICE_MAX_DATA_LEN) := by
  obtain ⟨t, ht, hsent, hidx, htake⟩ :=
    writeLoop_chunks x hnl (x.length + 1) s x.length 0 hsb hk (by omega) (by omega)
  refine ⟨t, ?_, ?_, ?_, hidx, ?_⟩
  · unfold write
    simp only []
    rw [if_pos hc, ht]
  · rw [hsent]
    simp only [Nat.zero_add]
  · intro i hi
    rw [N_eq] at hi ⊢
    rw [List.length_take, List.length_drop]
    have := Nat.mul_le_of_le_div 20 (i + 1) x.length (by omega)
    omega
  · rw [htake, Nat.zero_add]
    apply List.take_of_length_le
    rw [List.length_drop]
    omega

theorem write_full_chunks_witness :
    (new ⟨true, []⟩ 1 2).ble.connected = true ∧
    (new ⟨true, []⟩ 1 2).sendBuffer.length = BLE_UART_SERVICE_MAX_DATA_LEN ∧
    (new ⟨true, []⟩ 1 2).sendBufferIndex = 0 ∧
    (10 : Byte) ∉ ([48, 49, 50, 51, 52, 53, 54, 55, 56, 57, 48, 49, 50, 51, 52, 53, 54, 55,
      56, 57, 48, 49] : List Byte) ∧
    ∃ t, write (new ⟨true, []⟩ 1 2)
        [48, 49, 50, 51, 52, 53, 54, 55, 56, 57, 48, 49, 50, 51, 52, 53, 54, 55, 56, 57, 48, 49]
        22 = .ok ((22 : Int), t) ∧
      t.ble.sent = [⟨2, [48, 49, 50, 51, 52, 53, 54, 55, 56, 57, 48, 49, 50, 51, 52, 53, 54,
        55, 56, 57]⟩] ∧
      t.sendBufferIndex = 2 ∧ t.sendBuffer.take 2 = [48, 49] := by
  obtain ⟨t, h1, h2, _, h4, h5⟩ := write_full_chunks (new ⟨true, []⟩ 1 2)
    [48, 49, 50, 51, 52, 53, 54, 55, 56, 57, 48, 49, 50, 51, 52, 53, 54, 55, 56, 57, 48, 49]
    rfl (by decide) rfl (by decide)
  exact ⟨rfl, by decide, rfl, by decide, t, h1, h2, h4, h5⟩

/-- C5: connected, `sendBufferIndex = k`, a write of `x` without `'\n'` and
with `k + |x| < N` sends no notification; afterwards `sendBufferIndex` is
`k + |x|`, `sendBuffer[k .. k+|x|)` is `x` and `sendBuffer[0 .. k)` is as
before. -/
theorem write_below_capacity_silent (s : UARTService) (x : List Byte)
    (hc : s.ble.connected = true)
    (hsb : s.sendBuffer.length = BLE_UART_SERVICE_MAX_DATA_LEN)
    (hnl : (10 : Byte) ∉ x)
    (hfit : s.sendBufferIndex + x.length < BLE_UART_SERVICE_MAX_DATA_LEN) :
    ∃ t, write s x x.length = .ok ((x.length : Int), t) ∧
      t.ble.sent = s.ble.sent ∧
      t.sendBufferIndex = s.sendBufferIndex + x.length ∧
      (t.sendBuffer.drop s.sendBufferIndex).take x.length = x ∧
      t.sendBuffer.take s.sendBufferIndex = s.sendBuffer.take s.sendBufferIndex := by
  by_cases hx : x = []
  · subst hx
    refine ⟨s, ?_, rfl, rfl, by simp, rfl⟩
    simp [write, hc, writeLoop_zero_length]
  · have hcond : ¬(s.sendBufferIndex + x.length = BLE_UART_SERVICE_MAX_DATA_LEN
        ∨ x.getLast? = some 10) := by
      rintro (h | h)
      · omega
      · exact hnl (List.mem_of_getLast?_eq_some h)
    have hpre : (s.sendBuffer.take s.sendBufferIndex).length = s.sendBufferIndex := by
      rw [List.length_take]; omega
    refine ⟨_, write_short s x hc hsb hx (by omega), ?_, ?_, ?_, ?_⟩
    · simp [hcond]
    · simp [hcond]
    · rw [if_neg hcond]
      simp only [List.append_assoc]
      rw [List.drop_append_eq_append_drop, hpre,
        List.drop_eq_nil_of_le (by rw [hpre]), Nat.sub_self]
      simp
    · rw [if_neg hcond]
      simp only [List.append_assoc]
      rw [List.take_append_eq_append_take, hpre]
      simp

theorem write_below_capacity_silent_witness :
    (new ⟨true, []⟩ 1 2).ble.connected = true ∧
    (new ⟨true, []⟩ 1 2).sendBuffer.length = BLE_UART_SERVICE_MAX_DATA_LEN ∧
    (10 : Byte) ∉ ([104, 105] : List Byte) ∧
    (new ⟨true, []⟩ 1 2).sendBufferIndex + ([104, 105] : List Byte).length
      < BLE_UART_SERVICE_MAX_DATA_LEN ∧
    ∃ t, write (new ⟨true, []⟩ 1 2) [104, 105] 2 = .ok ((2 : Int), t) ∧
      t.ble.sent = [] ∧ t.sendBufferIndex = 2 ∧
      t.sendBuffer.take 2 = [104, 105] := by
  obtain ⟨t, h1, h2, h3, h4, _⟩ := write_below_capacity_silent (new ⟨true, []⟩ 1 2)
    [104, 105] rfl (by decide) (by decide) (by decide)
  exact ⟨rfl, by decide, by decide, by decide, t, h1, h2, h3, h4⟩

/-- C6: while the transport is not connected, for every state and every
input, `write` sends no notification and leaves the whole object, send buffer
and `sendBufferIndex` included, exactly as it was, and returns `length`. -/
theorem write_disconnected_noop (s : UARTService) (buffer : List Byte) (length : Nat)
    (hc : s.ble.connected = false) :
    write s buffer length = .ok ((length : Int), s) := by
  simp [write, hc]

theorem write_disconnected_noop_witness :
    (new ⟨false, []⟩ 1 2).ble.connected = false ∧
    write (new ⟨false, []⟩ 1 2) [104, 105, 10] 3 = .ok ((3 : Int), new ⟨false, []⟩ 1 2) :=
  ⟨rfl, write_disconnected_noop (new ⟨false, []⟩ 1 2) [104, 105, 10] 3 rfl⟩

/-- C7: the send buffer never overflows. The constructed object has a send
buffer of `N` bytes and `sendBufferIndex = 0`; and from any state with
`sendBufferIndex < N`, for input of any length, `write` ends without an
out-of-bounds access (every `memcpy` stays inside the `N` bytes), every
notification payload has between 1 and `N` bytes, and `sendBufferIndex < N`
holds again on return. -/
theorem write_capacity_invariant (ble : BLEDevice) (tx rx : Nat)
    (s : UARTService) (buffer : List Byte) (length : Nat)
    (hsb : s.sendBuffer.length = BLE_UART_SERVICE_MAX_DATA_LEN)
    (hk : s.sendBufferIndex < BLE_UART_SERVICE_MAX_DATA_LEN)
    (hsrc : length ≤ buffer.length) :
    ((new ble tx rx).sendBuffer.length = BLE_UART_SERVICE_MAX_DATA_LEN ∧
      (new ble tx rx).sendBufferIndex = 0 ∧ BLE_UART_SERVICE_MAX_DATA_LEN = 20) ∧
    ∃ t, write s buffer length = .ok ((length : Int), t) ∧
      t.sendBuffer.length = BLE_UART_SERVICE_MAX_DATA_LEN ∧
      t.sendBufferIndex < BLE_UART_SERVICE_MAX_DATA_LEN ∧
      ∃ out : List Notification, t.ble.sent = s.ble.sent ++ out ∧
        ∀ n ∈ out, 1 ≤ n.payload.length ∧ n.payload.length ≤ BLE_UART_SERVICE_MAX_DATA_LEN := by
  refine ⟨⟨by simp [new], rfl, rfl⟩, ?_⟩
  unfold write
  by_cases hc : s.ble.connected = true
  · obtain ⟨t, ht, htl, hti, _, out, hsent, hbound, _⟩ :=
      writeLoop_spec buffer (length + 1) s length 0 hsb hk (by omega) (by omega)
    refine ⟨t, by simp [hc, ht], htl, hti, _, hsent, ?_⟩
    intro n hn
    obtain ⟨p, hp, rfl⟩ := List.mem_map.mp hn
    exact hbound p hp
  · exact ⟨s, by simp [hc], hsb, hk, [], by simp, by simp⟩

theorem write_capacity_invariant_witness :
    (new ⟨true, []⟩ 1 2).sendBuffer.length = BLE_UART_SERVICE_MAX_DATA_LEN ∧
    (new ⟨true, []⟩ 1 2).sendBufferIndex < BLE_UART_SERVICE_MAX_DATA_LEN ∧
    50 ≤ (List.replicate 50 (7 : Byte)).length ∧
    ∃ t, write (new ⟨true, []⟩ 1 2) (List.replicate 50 7) 50 = .ok ((50 : Int), t) ∧
      t.sendBuffer.length = BLE_UART_SERVICE_MAX_DATA_LEN ∧
      t.sendBufferIndex < BLE_UART_SERVICE_MAX_DATA_LEN :=
  have h := (write_capacity_invariant ⟨true, []⟩ 1 2 (new ⟨true, []⟩ 1 2)
    (List.replicate 50 7) 50 (by decide) (by decide) (by simp)).2
  ⟨by decide, by decide, by simp, h.elim fun t ht => ⟨t, ht.1, ht.2.1, ht.2.2.1⟩⟩

/-- C8: a fragment on the TX characteristic handle with `0 ≤ len ≤ N` (both
bounds included) is captured whatever the receive state was: afterwards
`numBytesReceived = len`, `receiveBufferIndex = 0` and
`receiveBuffer[0 .. len)` is the fragment data. -/
theorem onDataWritten_captures (s : UARTService) (p : GattCharacteristicWriteCBParams)
    (hh : p.charHandle = s.getTXCharacteristicHandle)
    (hN : p.len ≤ BLE_UART_SERVICE_MAX_DATA_LEN)
    (hdata : p.data.length = p.len)
    (hrb : s.receiveBuffer.length = BLE_UART_SERVICE_MAX_DATA_LEN) :
    ∃ t, onDataWritten s p = .ok t ∧ t.numBytesReceived = p.len ∧
      t.receiveBufferIndex = 0 ∧ t.receiveBuffer.take p.len = p.data := by
  refine ⟨_, onDataWritten_accept s p hh hN (by omega) hrb, rfl, rfl, ?_⟩
  simp only []
  rw [List.take_append_eq_append_take, List.length_take, hdata, Nat.min_self, Nat.sub_self,
    List.take_take, Nat.min_self, List.take_zero, List.append_nil, ← hdata, List.take_length]

theorem onDataWritten_captures_witness :
    (⟨1, 3, [65, 66, 67]⟩ : GattCharacteristicWriteCBParams).charHandle
      = (new ⟨true, []⟩ 1 2).getTXCharacteristicHandle ∧
    (⟨1, 3, [65, 66, 67]⟩ : GattCharacteristicWriteCBParams).len
      ≤ BLE_UART_SERVICE_MAX_DATA_LEN ∧
    (⟨1, 3, [65, 66, 67]⟩ : GattCharacteristicWriteCBParams).data.length
      = (⟨1, 3, [65, 66, 67]⟩ : GattCharacteristicWriteCBParams).len ∧
    (new ⟨true, []⟩ 1 2).receiveBuffer.length = BLE_UART_SERVICE_MAX_DATA_LEN ∧
    ∃ t, onDataWritten (new ⟨true, []⟩ 1 2) ⟨1, 3, [65, 66, 67]⟩ = .ok t ∧
      t.numBytesReceived = 3 ∧ t.receiveBufferIndex = 0 ∧
      t.receiveBuffer.take 3 = [65, 66, 67] :=
  ⟨rfl, by decide, rfl, by decide, onDataWritten_captures (new ⟨true, []⟩ 1 2) ⟨1, 3, [65, 66, 67]⟩ rfl
    (by decide) rfl (by decide)⟩

/-- C9: a fragment whose handle is not the TX characteristic handle, or whose
(16-bit) length exceeds `N`, is dropped whole: the object, and with it
`receiveBuffer`, `numBytesReceived` and `receiveBufferIndex`, is unchanged, so
every later sequence of reads returns what it would have returned before. -/
theorem onDataWritten_drops (s : UARTService) (p : GattCharacteristicWriteCBParams)
    (hdrop : p.charHandle ≠ s.getTXCharacteristicHandle
      ∨ (BLE_UART_SERVICE_MAX_DATA_LEN < p.len ∧ p.len < 65536)) :
    ∃ t, onDataWritten s p = .ok t ∧ t = s ∧ ∀ n, getcs n t = getcs n s := by
  refine ⟨s, ?_, rfl, fun _ => rfl⟩
  unfold onDataWritten
  rcases hdrop with h | ⟨h1, h2⟩
  · rw [if_neg h]
  · have hmod : p.len % 65536 = p.len := by omega
    simp only [hmod]
    by_cases hh : p.charHandle = s.getTXCharacteristicHandle
    · rw [if_pos hh, if_neg (by omega)]
    · rw [if_neg hh]

theorem onDataWritten_drops_witness :
    ((⟨1, 21, List.replicate 21 9⟩ : GattCharacteristicWriteCBParams).charHandle
        ≠ (new ⟨true, []⟩ 1 2).getTXCharacteristicHandle
      ∨ (BLE_UART_SERVICE_MAX_DATA_LEN
          < (⟨1, 21, List.replicate 21 9⟩ : GattCharacteristicWriteCBParams).len
        ∧ (⟨1, 21, List.replicate 21 9⟩ : GattCharacteristicWriteCBParams).len < 65536)) ∧
    ∃ t, onDataWritten (new ⟨true, []⟩ 1 2) ⟨1, 21, List.replicate 21 9⟩ = .ok t ∧
      t = new ⟨true, []⟩ 1 2 ∧ ∀ n, getcs n t = getcs n (new ⟨true, []⟩ 1 2) :=
  ⟨Or.inr (by decide), onDataWritten_drops (new ⟨true, []⟩ 1 2)
    ⟨1, 21, List.replicate 21 9⟩ (Or.inr (by decide))⟩

/-- C10: capture/read round trip. After a fragment `d` of `len ≤ N` bytes is
accepted by `onDataWritten`, the next `len` calls of `_getc` return
`d[0], …, d[len-1]` in order, each a value in `0..255`, and call `len + 1`
returns `EOF`. -/
theorem capture_read_roundtrip (s : UARTService) (p : GattCharacteristicWriteCBParams)
    (hh : p.charHandle = s.getTXCharacteristicHandle)
    (hN : p.len ≤ BLE_UART_SERVICE_MAX_DATA_LEN)
    (hdata : p.data.length = p.len)
    (hrb : s.receiveBuffer.length = BLE_UART_SERVICE_MAX_DATA_LEN) :
    ∃ t u, onDataWritten s p = .ok t ∧
      getcs (p.len + 1) t = .ok (p.data.map (fun b => (b.val : Int)) ++ [EOF], u) ∧
      ∀ v ∈ p.data.map (fun b => (b.val : Int)), 0 ≤ v ∧ v ≤ 255 ∧ v ≠ EOF := by
  have ht := onDataWritten_accept s p hh hN (by omega) hrb
  rw [N_eq] at hN hrb
  have hg := getcs_to_end p.len
    { s with
      numBytesReceived := p.len
      receiveBufferIndex := 0
      receiveBuffer := p.data.take p.len ++ s.receiveBuffer.drop p.len }
    (by simp) (by simp; omega) (by simp only; omega)
  simp only [List.drop_zero] at hg
  rw [List.take_append_eq_append_take, List.length_take, hdata, Nat.min_self, Nat.sub_self,
    List.take_take, Nat.min_self, List.take_zero, List.append_nil] at hg
  rw [← hdata, List.take_length, hdata] at hg ht
  refine ⟨_, _, ht, hg, ?_⟩
  · intro v hv
    obtain ⟨b, _, rfl⟩ := List.mem_map.mp hv
    have := b.isLt
    simp only [EOF]
    omega

theorem capture_read_roundtrip_witness :
    (⟨1, 3, [0x41, 0x42, 0x43]⟩ : GattCharacteristicWriteCBParams).charHandle
      = (new ⟨true, []⟩ 1 2).getTXCharacteristicHandle ∧
    (⟨1, 3, [0x41, 0x42, 0x43]⟩ : GattCharacteristicWriteCBParams).len
      ≤ BLE_UART_SERVICE_MAX_DATA_LEN ∧
    (⟨1, 3, [0x41, 0x42, 0x43]⟩ : GattCharacteristicWriteCBParams).data.length
      = (⟨1, 3, [0x41, 0x42, 0x43]⟩ : GattCharacteristicWriteCBParams).len ∧
    (new ⟨true, []⟩ 1 2).receiveBuffer.length = BLE_UART_SERVICE_MAX_DATA_LEN ∧
    ∃ t u, onDataWritten (new ⟨true, []⟩ 1 2) ⟨1, 3, [0x41, 0x42, 0x43]⟩ = .ok t ∧
      getcs 4 t = .ok ([0x41, 0x42, 0x43, EOF], u) := by
  obtain ⟨t, u, h1, h2, _⟩ := capture_read_roundtrip (new ⟨true, []⟩ 1 2)
    ⟨1, 3, [0x41, 0x42, 0x43]⟩ rfl (by decide) rfl (by decide)
  exact ⟨rfl, by decide, rfl, by decide, t, u, h1, h2⟩

/-- C11: inbound overwrite, last write wins. After an accepted fragment `A`
of `a` bytes and `j < a` calls of `_getc` (which return `A[0 .. j)`), an
accepted fragment `B` of `b` bytes replaces what is left: the next `b` calls
of `_getc` return exactly `B[0 .. b)` in order and the call after them
returns `EOF`, so none of the unread bytes `A[j .. a)` is returned. -/
theorem onDataWritten_last_write_wins (s : UARTService)
    (pA pB : GattCharacteristicWriteCBParams) (j : Nat)
    (hA : pA.charHandle = s.getTXCharacteristicHandle)
    (hAN : pA.len ≤ BLE_UART_SERVICE_MAX_DATA_LEN)
    (hAd : pA.data.length = pA.len)
    (hB : pB.charHandle = s.getTXCharacteristicHandle)
    (hBN : pB.len ≤ BLE_UART_SERVICE_MAX_DATA_LEN)
    (hBd : pB.data.length = pB.len)
    (hrb : s.receiveBuffer.length = BLE_UART_SERVICE_MAX_DATA_LEN)
    (hj : j < pA.len) :
    ∃ t1 t2 t3 t4, onDataWritten s pA = .ok t1 ∧
      getcs j t1 = .ok ((pA.data.take j).map (fun b => (b.val : Int)), t2) ∧
      onDataWritten t2 pB = .ok t3 ∧
      getcs (pB.len + 1) t3 = .ok (pB.data.map (fun b => (b.val : Int)) ++ [EOF], t4) := by
  have ht1 := onDataWritten_accept s pA hA hAN (by omega) hrb
  have hlen1 : (pA.data.take pA.len ++ s.receiveBuffer.drop pA.len).length
      = BLE_UART_SERVICE_MAX_DATA_LEN := by
    rw [List.length_append, List.length_take, List.length_drop, hAd, hrb]
    omega
  have hg := getcs_partial j
    { s with
      numBytesReceived := pA.len
      receiveBufferIndex := 0
      receiveBuffer := pA.data.take pA.len ++ s.receiveBuffer.drop pA.len }
    (by simp only; omega) (by simp only; rw [hlen1]; exact hAN)
    (by simp only; rw [N_eq] at hAN; omega)
  simp only [List.drop_zero, Nat.zero_add] at hg
  have htake : (pA.data.take pA.len ++ s.receiveBuffer.drop pA.len).take j
      = pA.data.take j := by
    rw [List.take_append_eq_append_take, List.length_take, hAd, Nat.min_self,
      List.take_take, Nat.min_eq_left (by omega), Nat.sub_eq_zero_of_le (by omega),
      List.take_zero, List.append_nil]
  rw [htake] at hg
  obtain ⟨t3, t4, ht3, hg3⟩ := capture_then_read
    { s with
      numBytesReceived := pA.len
      receiveBufferIndex := j
      receiveBuffer := pA.data.take pA.len ++ s.receiveBuffer.drop pA.len }
    pB hB hBN hBd hlen1
  exact ⟨_, _, t3, t4, ht1, hg, ht3, hg3⟩

theorem onDataWritten_last_write_wins_witness :
    (⟨1, 3, [65, 66, 67]⟩ : GattCharacteristicWriteCBParams).charHandle
      = (new ⟨true, []⟩ 1 2).getTXCharacteristicHandle ∧
    (⟨1, 3, [65, 66, 67]⟩ : GattCharacteristicWriteCBParams).len
      ≤ BLE_UART_SERVICE_MAX_DATA_LEN ∧
    (⟨1, 3, [65, 66, 67]⟩ : GattCharacteristicWriteCBParams).data.length
      = (⟨1, 3, [65, 66, 67]⟩ : GattCharacteristicWriteCBParams).len ∧
    (⟨1, 2, [120, 121]⟩ : GattCharacteristicWriteCBParams).charHandle
      = (new ⟨true, []⟩ 1 2).getTXCharacteristicHandle ∧
    (⟨1, 2, [120, 121]⟩ : GattCharacteristicWriteCBParams).len
      ≤ BLE_UART_SERVICE_MAX_DATA_LEN ∧
    (⟨1, 2, [120, 121]⟩ : GattCharacteristicWriteCBParams).data.length
      = (⟨1, 2, [120, 121]⟩ : GattCharacteristicWriteCBParams).len ∧
    (new ⟨true, []⟩ 1 2).receiveBuffer.length = BLE_UART_SERVICE_MAX_DATA_LEN ∧
    1 < (⟨1, 3, [65, 66, 67]⟩ : GattCharacteristicWriteCBParams).len ∧
    ∃ t1 t2 t3 t4, onDataWritten (new ⟨true, []⟩ 1 2) ⟨1, 3, [65, 66, 67]⟩ = .ok t1 ∧
      getcs 1 t1 = .ok ([65], t2) ∧
      onDataWritten t2 ⟨1, 2, [120, 121]⟩ = .ok t3 ∧
      getcs 3 t3 = .ok ([120, 121, EOF], t4) :=
  ⟨rfl, by decide, rfl, rfl, by decide, rfl, by decide, by decide,
    onDataWritten_last_write_wins (new ⟨true, []⟩ 1 2) ⟨1, 3, [65, 66, 67]⟩
      ⟨1, 2, [120, 121]⟩ 1 rfl (by decide) rfl rfl (by decide) rfl (by decide) (by decide)⟩

/-- C12: end of stream is stable. In every state with
`receiveBufferIndex = numBytesReceived`, `_getc` returns `EOF` and changes
nothing, so `n` consecutive calls all return `EOF`, for every `n`. The
constructed object is such a state, and so is the state after a zero-length
fragment has been accepted. -/
theorem getc_eof_stable (s : UARTService) (n : Nat)
    (h : s.receiveBufferIndex = s.numBytesReceived) :
    (s._getc = .ok (EOF, s) ∧ getcs n s = .ok (List.replicate n EOF, s)) ∧
    (∀ ble tx rx, (new ble tx rx).receiveBufferIndex = (new ble tx rx).numBytesReceived) ∧
    (∀ (u : UARTService) (p : GattCharacteristicWriteCBParams),
      p.charHandle = u.getTXCharacteristicHandle → p.len = 0 →
      u.receiveBuffer.length = BLE_UART_SERVICE_MAX_DATA_LEN →
      ∃ t, onDataWritten u p = .ok t ∧ t.receiveBufferIndex = t.numBytesReceived) := by
  refine ⟨⟨by simp [_getc, h], getcs_at_end s h n⟩, fun _ _ _ => rfl, ?_⟩
  intro u p hh h0 hrb
  refine ⟨_, onDataWritten_accept u p hh (by omega) (by omega) hrb, ?_⟩
  simp only [h0]

theorem getc_eof_stable_witness :
    (new ⟨true, []⟩ 1 2).receiveBufferIndex = (new ⟨true, []⟩ 1 2).numBytesReceived ∧
    (new ⟨true, []⟩ 1 2)._getc = .ok (EOF, new ⟨true, []⟩ 1 2) ∧
    getcs 3 (new ⟨true, []⟩ 1 2) = .ok ([EOF, EOF, EOF], new ⟨true, []⟩ 1 2) :=
  ⟨rfl, (getc_eof_stable (new ⟨true, []⟩ 1 2) 3 rfl).1⟩

/-- C13: writing zero bytes is a no-op. In every state, connected or not,
`write(buffer, 0)` returns 0 and leaves the whole object unchanged: no
notification, same send buffer and `sendBufferIndex`, same receive state. -/
theorem write_zero_noop (s : UARTService) (buffer : List Byte) :
    write s buffer 0 = .ok ((0 : Int), s) := by
  unfold write
  simp only [writeLoop_zero_length]
  split <;> rfl

/-- C14 (evaluation at the failing input): on the connected, constructed
object `_putc('A')` returns 1, not the character 65 it has just put in the
send buffer. -/
theorem putc_returns_one_not_char :
    ∃ t, _putc (new ⟨true, []⟩ 1 2) 65 = .ok ((1 : Int), t) ∧
      t.sendBuffer.take t.sendBufferIndex = [65] ∧ (1 : Int) ≠ 65 % 256 :=
  ⟨_, rfl, rfl, by decide⟩

/-- C15: outbound stream preservation. Connected, with
`p = sendBuffer[0 .. sendBufferIndex)` buffered and `sendBufferIndex < N`,
for every input `x` the payloads sent by `write(x)`, concatenated in the
order sent and followed by the bytes left in
`sendBuffer[0 .. sendBufferIndex)`, are `p ++ x`. -/
theorem write_preserves_stream (s : UARTService) (x : List Byte)
    (hc : s.ble.connected = true)
    (hsb : s.sendBuffer.length = BLE_UART_SERVICE_MAX_DATA_LEN)
    (hk : s.sendBufferIndex < BLE_UART_SERVICE_MAX_DATA_LEN) :
    ∃ t out, write s x x.length = .ok ((x.length : Int), t) ∧
      t.ble.sent = s.ble.sent ++ out ∧
      (out.map Notification.payload).flatten ++ t.sendBuffer.take t.sendBufferIndex
        = s.sendBuffer.take s.sendBufferIndex ++ x := by
  obtain ⟨t, ht, _, _, _, out, hsent, _, hstream⟩ :=
    writeLoop_spec x (x.length + 1) s x.length 0 hsb hk (by omega) (by omega)
  refine ⟨t, _, ?_, hsent, ?_⟩
  · unfold write
    simp only []
    rw [if_pos hc, ht]
  · have hmap : (out.map (fun p => (⟨s.getRXCharacteristicHandle, p⟩ : Notification))).map
        Notification.payload = out := by
      rw [List.map_map]
      exact List.map_id'' (fun _ => rfl) out
    rw [hmap, hstream, List.drop_zero, List.take_length]

theorem write_preserves_stream_witness :
    (new ⟨true, []⟩ 1 2).ble.connected = true ∧
    (new ⟨true, []⟩ 1 2).sendBuffer.length = BLE_UART_SERVICE_MAX_DATA_LEN ∧
    (new ⟨true, []⟩ 1 2).sendBufferIndex < BLE_UART_SERVICE_MAX_DATA_LEN ∧
    ∃ t out, write (new ⟨true, []⟩ 1 2) [104, 105, 10, 120] 4 = .ok ((4 : Int), t) ∧
      t.ble.sent = out ∧
      (out.map Notification.payload).flatten ++ t.sendBuffer.take t.sendBufferIndex
        = [104, 105, 10, 120] :=
  ⟨rfl, by decide, by decide,
    write_preserves_stream (new ⟨true, []⟩ 1 2) [104, 105, 10, 120] rfl (by decide)
      (by decide)⟩

/-- C16: the receive-cursor invariant
`0 ≤ receiveBufferIndex ≤ numBytesReceived ≤ N` holds in the constructed
object and is kept by every `onDataWritten` call (any handle, any length,
the data holding `len` bytes) and by every `_getc` call; and `_getc`, which
only compares the two cursors, then never faults: when it reads
`receiveBuffer` at all, the index read is below `numBytesReceived` and below
`N`. -/
theorem receive_cursor_invariant (ble : BLEDevice) (tx rx : Nat) (s : UARTService)
    (p : GattCharacteristicWriteCBParams)
    (hinv : ReceiveInvariant s) (hdata : p.len ≤ p.data.length) :
    ReceiveInvariant (new ble tx rx) ∧
    (∃ t, onDataWritten s p = .ok t ∧ ReceiveInvariant t) ∧
    (∃ c t, s._getc = .ok (c, t) ∧ ReceiveInvariant t ∧
      (s.receiveBufferIndex = s.numBytesReceived ∨
        (s.receiveBufferIndex < s.numBytesReceived ∧
          s.receiveBufferIndex < BLE_UART_SERVICE_MAX_DATA_LEN))) := by
  obtain ⟨hle, hN, hrb⟩ := hinv
  refine ⟨⟨Nat.le_refl _, Nat.zero_le _, by simp [new]⟩, ?_, ?_⟩
  · unfold onDataWritten
    by_cases hh : p.charHandle = s.getTXCharacteristicHandle
    · rw [if_pos hh]
      simp only []
      by_cases hb : p.len % 65536 ≤ BLE_UART_SERVICE_MAX_DATA_LEN
      · rw [if_pos hb]
        rw [N_eq] at hb hrb
        have h256 : p.len % 65536 % 256 = p.len % 65536 := by omega
        have hsrc : p.len % 65536 ≤ p.data.length :=
          Nat.le_trans (Nat.mod_le _ _) hdata
        rw [h256, memcpy_eq_some (by omega) (by omega)]
        refine ⟨_, rfl, Nat.zero_le _, by rw [N_eq]; exact hb, ?_⟩
        simp only [N_eq, List.take_zero, List.nil_append, List.drop_zero, Nat.zero_add,
          List.length_append, List.length_take, List.length_drop]
        omega
      · rw [if_neg hb]
        exact ⟨s, rfl, hle, hN, hrb⟩
    · rw [if_neg hh]
      exact ⟨s, rfl, hle, hN, hrb⟩
  · unfold _getc
    by_cases he : s.receiveBufferIndex = s.numBytesReceived
    · rw [if_pos he]
      exact ⟨_, _, rfl, ⟨hle, hN, hrb⟩, Or.inl he⟩
    · rw [if_neg he]
      have hlt : s.receiveBufferIndex < s.numBytesReceived := by omega
      have hidx : s.receiveBufferIndex < s.receiveBuffer.length := by omega
      rw [List.getElem?_eq_getElem hidx]
      rw [N_eq] at hN
      have hmod : (s.receiveBufferIndex + 1) % 256 = s.receiveBufferIndex + 1 := by omega
      refine ⟨_, _, rfl, ⟨?_, by rw [N_eq]; exact hN, hrb⟩, Or.inr ⟨hlt, by rw [N_eq]; omega⟩⟩
      simp only [hmod]
      omega

theorem receive_cursor_invariant_witness :
    ReceiveInvariant (new ⟨true, []⟩ 1 2) ∧
    (⟨1, 3, [65, 66, 67]⟩ : GattCharacteristicWriteCBParams).len
      ≤ (⟨1, 3, [65, 66, 67]⟩ : GattCharacteristicWriteCBParams).data.length ∧
    ∃ t, onDataWritten (new ⟨true, []⟩ 1 2) ⟨1, 3, [65, 66, 67]⟩ = .ok t ∧
      ReceiveInvariant t :=
  have h0 : ReceiveInvariant (new ⟨true, []⟩ 1 2) := ⟨by decide, by decide, by decide⟩
  ⟨h0, by decide,
    (receive_cursor_invariant ⟨true, []⟩ 1 2 (new ⟨true, []⟩ 1 2) ⟨1, 3, [65, 66, 67]⟩ h0
      (by decide)).2.1⟩

/-- C17: the two directions touch disjoint state. Whenever `write` or `_putc`
returns, `receiveBuffer`, `numBytesReceived` and `receiveBufferIndex` are as
before; whenever `onDataWritten` or `_getc` returns, `sendBuffer`,
`sendBufferIndex` and the transport (so the notifications sent) are as
before. This holds in every state and for every argument. -/
theorem directions_disjoint (s : UARTService) (buffer : List Byte) (length : Nat) (c : Int)
    (p : GattCharacteristicWriteCBParams) :
    (∀ r t, write s buffer length = .ok (r, t) →
      t.receiveBuffer = s.receiveBuffer ∧ t.numBytesReceived = s.numBytesReceived ∧
      t.receiveBufferIndex = s.receiveBufferIndex) ∧
    (∀ r t, s._putc c = .ok (r, t) →
      t.receiveBuffer = s.receiveBuffer ∧ t.numBytesReceived = s.numBytesReceived ∧
      t.receiveBufferIndex = s.receiveBufferIndex) ∧
    (∀ t, onDataWritten s p = .ok t →
      t.sendBuffer = s.sendBuffer ∧ t.sendBufferIndex = s.sendBufferIndex ∧ t.ble = s.ble) ∧
    (∀ r t, s._getc = .ok (r, t) →
      t.sendBuffer = s.sendBuffer ∧ t.sendBufferIndex = s.sendBufferIndex ∧ t.ble = s.ble) := by
  refine ⟨?_, ?_, ?_, ?_⟩
  · intro r t h
    obtain ⟨h1, h2, h3, _⟩ := write_frame s buffer length r t h
    exact ⟨h1, h2, h3⟩
  · intro r t h
    unfold _putc at h
    split at h
    · cases h
    · rename_i r0 t0 hw
      simp only [Except.ok.injEq, Prod.mk.injEq] at h
      obtain ⟨_, ht⟩ := h
      obtain ⟨h1, h2, h3, _⟩ := write_frame s (intBytes c) 1 r0 t0 hw
      rw [← ht]
      exact ⟨h1, h2, h3⟩
  · intro t h
    unfold onDataWritten at h
    split at h
    · simp only [] at h
      split at h
      · split at h
        · cases h
        · cases h; exact ⟨rfl, rfl, rfl⟩
      · cases h; exact ⟨rfl, rfl, rfl⟩
    · cases h; exact ⟨rfl, rfl, rfl⟩
  · intro r t h
    unfold _getc at h
    split at h
    · cases h; exact ⟨rfl, rfl, rfl⟩
    · split at h
      · cases h
      · cases h; exact ⟨rfl, rfl, rfl⟩

theorem directions_disjoint_witness :
    (∃ r t, write (new ⟨true, []⟩ 1 2) [104, 10] 2 = .ok (r, t) ∧
      t.receiveBuffer = (new ⟨true, []⟩ 1 2).receiveBuffer ∧
      t.numBytesReceived = (new ⟨true, []⟩ 1 2).numBytesReceived ∧
      t.receiveBufferIndex = (new ⟨true, []⟩ 1 2).receiveBufferIndex) ∧
    (∃ t, onDataWritten (new ⟨true, []⟩ 1 2) ⟨1, 2, [65, 66]⟩ = .ok t ∧
      t.sendBuffer = (new ⟨true, []⟩ 1 2).sendBuffer ∧
      t.sendBufferIndex = (new ⟨true, []⟩ 1 2).sendBufferIndex ∧
      t.ble = (new ⟨true, []⟩ 1 2).ble) :=
  ⟨⟨_, _, rfl, (directions_disjoint (new ⟨true, []⟩ 1 2) [104, 10] 2 0
      ⟨1, 2, [65, 66]⟩).1 _ _ rfl⟩,
    ⟨_, rfl, (directions_disjoint (new ⟨true, []⟩ 1 2) [104, 10] 2 0
      ⟨1, 2, [65, 66]⟩).2.2.1 _ rfl⟩⟩

/-- C20: under `receiveBufferIndex ≤ numBytesReceived ≤ N`, `_getc` returns,
and it returns `EOF` if and only if `receiveBufferIndex = numBytesReceived`.
In every other state it returns `receiveBuffer[receiveBufferIndex]` as a
value in `0..255`, which is not `EOF`, advances `receiveBufferIndex` by
exactly 1 and leaves `receiveBuffer` and `numBytesReceived` as they were. -/
theorem getc_eof_iff (s : UARTService)
    (hle : s.receiveBufferIndex ≤ s.numBytesReceived)
    (hN : s.numBytesReceived ≤ BLE_UART_SERVICE_MAX_DATA_LEN)
    (hrb : s.receiveBuffer.length = BLE_UART_SERVICE_MAX_DATA_LEN) :
    ∃ c t, s._getc = .ok (c, t) ∧
      (c = EOF ↔ s.receiveBufferIndex = s.numBytesReceived) ∧
      (s.receiveBufferIndex ≠ s.numBytesReceived →
        ∃ b : Byte, s.receiveBuffer[s.receiveBufferIndex]? = some b ∧ c = (b.val : Int) ∧
          0 ≤ c ∧ c ≤ 255 ∧ c ≠ EOF ∧
          t.receiveBufferIndex = s.receiveBufferIndex + 1 ∧
          t.receiveBuffer = s.receiveBuffer ∧
          t.numBytesReceived = s.numBytesReceived) := by
  unfold _getc
  by_cases he : s.receiveBufferIndex = s.numBytesReceived
  · rw [if_pos he]
    exact ⟨_, _, rfl, ⟨fun _ => he, fun _ => rfl⟩, fun h => absurd he h⟩
  · rw [if_neg he]
    have hidx : s.receiveBufferIndex < s.receiveBuffer.length := by omega
    rw [N_eq] at hN
    have hmod : (s.receiveBufferIndex + 1) % 256 = s.receiveBufferIndex + 1 := by omega
    have hb := (s.receiveBuffer[s.receiveBufferIndex]).isLt
    rw [List.getElem?_eq_getElem hidx]
    refine ⟨_, _, rfl, ⟨?_, fun h => absurd h he⟩, fun _ => ⟨_, rfl, rfl, ?_, ?_, ?_, ?_, rfl, rfl⟩⟩
    · intro h
      simp only [EOF] at h
      omega
    · omega
    · omega
    · simp only [EOF]; omega
    · simp only [hmod]

theorem getc_eof_iff_witness :
    ({ new ⟨true, []⟩ 1 2 with
        receiveBuffer := 255 :: List.replicate 19 0, numBytesReceived := 1 }
      : UARTService).receiveBufferIndex ≤ 1 ∧
    (1 : Nat) ≤ BLE_UART_SERVICE_MAX_DATA_LEN ∧
    (255 :: List.replicate 19 (0 : Byte)).length = BLE_UART_SERVICE_MAX_DATA_LEN ∧
    ∃ c t, ({ new ⟨true, []⟩ 1 2 with
        receiveBuffer := 255 :: List.replicate 19 0, numBytesReceived := 1 }
      : UARTService)._getc = .ok (c, t) ∧ (c = EOF ↔ (0 : Nat) = 1) :=
  have h := getc_eof_iff { new ⟨true, []⟩ 1 2 with
      receiveBuffer := 255 :: List.replicate 19 0, numBytesReceived := 1 }
    (by decide) (by decide) (by decide)
  ⟨by decide, by decide, by decide, h.elim fun c hc => hc.elim fun t ht => ⟨c, t, ht.1, ht.2.1⟩⟩

/-- C18: byte-at-a-time writing cuts on every terminator. Connected and
starting from an empty send buffer, when the bytes `bs` are written by
`bs.length` successive one-byte writes, the notifications sent are exactly
the reference segments of `bs` (a cut after each `0x0A` and after every
`N`-th byte since the last cut), each payload being the bytes written since
the previous cut, and the bytes after the last cut stay buffered. -/
theorem writeEach_reference_segmentation (s : UARTService) (bs : List Byte)
    (hc : s.ble.connected = true)
    (hsb : s.sendBuffer.length = BLE_UART_SERVICE_MAX_DATA_LEN)
    (hk : s.sendBufferIndex = 0) :
    ∃ t, writeEach s bs = .ok t ∧
      t.ble.sent = s.ble.sent ++ (referenceSegments [] bs).1.map
        (fun p => ⟨s.getRXCharacteristicHandle, p⟩) ∧
      t.sendBuffer.take t.sendBufferIndex = (referenceSegments [] bs).2 ∧
      ∀ (u : UARTService) (b : Byte), u.ble.connected = true →
        u.sendBuffer.length = BLE_UART_SERVICE_MAX_DATA_LEN →
        u.sendBufferIndex < BLE_UART_SERVICE_MAX_DATA_LEN →
        ∃ v, write u [b] 1 = .ok ((1 : Int), v) ∧
          ((b = 10 ∨ u.sendBufferIndex + 1 = BLE_UART_SERVICE_MAX_DATA_LEN) →
            v.ble.sent = u.ble.sent ++ [⟨u.getRXCharacteristicHandle,
              u.sendBuffer.take u.sendBufferIndex ++ [b]⟩] ∧ v.sendBufferIndex = 0) ∧
          (¬(b = 10 ∨ u.sendBufferIndex + 1 = BLE_UART_SERVICE_MAX_DATA_LEN) →
            v.ble.sent = u.ble.sent ∧
            v.sendBuffer.take v.sendBufferIndex
              = u.sendBuffer.take u.sendBufferIndex ++ [b]) := by
  obtain ⟨t, ht, hsent, htake⟩ := writeEach_segments bs s hc hsb (by rw [hk, N_eq]; decide)
  rw [hk, List.take_zero] at hsent htake
  refine ⟨t, ht, hsent, htake, ?_⟩
  intro u b huc husb huk
  have hw := write_short u [b] huc husb (by simp) (by simp only [List.length_singleton]; omega)
  simp only [List.length_singleton, List.getLast?_singleton, Option.some.injEq] at hw
  have hpre : (u.sendBuffer.take u.sendBufferIndex).length = u.sendBufferIndex := by
    rw [List.length_take]; omega
  refine ⟨_, hw, ?_, ?_⟩
  · intro hcond
    rw [if_pos hcond.symm]
    exact ⟨rfl, rfl⟩
  · intro hcond
    rw [if_neg (fun h => hcond h.symm)]
    refine ⟨rfl, ?_⟩
    simp only []
    rw [List.take_append_eq_append_take]
    simp [hpre]

theorem writeEach_reference_segmentation_witness :
    (new ⟨true, []⟩ 1 2).ble.connected = true ∧
    (new ⟨true, []⟩ 1 2).sendBuffer.length = BLE_UART_SERVICE_MAX_DATA_LEN ∧
    (new ⟨true, []⟩ 1 2).sendBufferIndex = 0 ∧
    ∃ t, writeEach (new ⟨true, []⟩ 1 2) [97, 10, 98, 10, 99] = .ok t ∧
      t.ble.sent = [⟨2, [97, 10]⟩, ⟨2, [98, 10]⟩] ∧
      t.sendBuffer.take t.sendBufferIndex = [99] :=
  have h := writeEach_reference_segmentation (new ⟨true, []⟩ 1 2) [97, 10, 98, 10, 99] rfl
    (by decide) rfl
  ⟨rfl, by decide, rfl, h.elim fun t ht => ⟨t, ht.1, ht.2.1, ht.2.2.1⟩⟩

/-- C19: write splitting. Connected, `sendBufferIndex < N`: when `a` is empty
or does not end in `0x0A`, `write(a)` followed by `write(b)` leaves exactly
the object that the single call `write(a ++ b)` leaves, so the notifications
sent, the buffered prefix of `sendBuffer` and `sendBufferIndex` are the
same. -/
theorem write_split (s : UARTService) (a b : List Byte)
    (hc : s.ble.connected = true)
    (hsb : s.sendBuffer.length = BLE_UART_SERVICE_MAX_DATA_LEN)
    (hk : s.sendBufferIndex < BLE_UART_SERVICE_MAX_DATA_LEN)
    (ha : a = [] ∨ a.getLast? ≠ some 10) :
    ∃ t1 t2, write s a a.length = .ok ((a.length : Int), t1) ∧
      write t1 b b.length = .ok ((b.length : Int), t2) ∧
      write s (a ++ b) (a ++ b).length = .ok (((a ++ b).length : Int), t2) := by
  have hlast : a.getLast? ≠ some 10 := by
    rcases ha with rfl | h
    · simp
    · exact h
  obtain ⟨t1, ht1, ht1sb, ht1k, hcont⟩ := writeLoop_append b (b.length + 1) (by omega)
    a.length s a (a.length + 1) ((a ++ b).length + 1) (Nat.le_refl _) hsb hk hlast (by omega)
    (by rw [List.length_append]; omega)
  obtain ⟨t2, ht2, _⟩ := writeLoop_spec b (b.length + 1) t1 b.length 0 ht1sb ht1k
    (by omega) (by omega)
  have hc1 : t1.ble.connected = true := by
    have hfr := writeLoop_frame a _ _ _ _ _ ht1
    rw [hfr.2.2.2.2.2, hc]
  rw [ht2, ← List.length_append] at hcont
  refine ⟨t1, t2, ?_, ?_, ?_⟩
  · unfold write
    simp only []
    rw [if_pos hc, ht1]
  · unfold write
    simp only []
    rw [if_pos hc1, ht2]
  · unfold write
    simp only []
    rw [if_pos hc, hcont]

theorem write_split_witness :
    (new ⟨true, []⟩ 1 2).ble.connected = true ∧
    (new ⟨true, []⟩ 1 2).sendBuffer.length = BLE_UART_SERVICE_MAX_DATA_LEN ∧
    (new ⟨true, []⟩ 1 2).sendBufferIndex < BLE_UART_SERVICE_MAX_DATA_LEN ∧
    (([97, 10, 98] : List Byte) = [] ∨ ([97, 10, 98] : List Byte).getLast? ≠ some 10) ∧
    ∃ t1 t2, write (new ⟨true, []⟩ 1 2) [97, 10, 98] 3 = .ok ((3 : Int), t1) ∧
      write t1 [99, 10] 2 = .ok ((2 : Int), t2) ∧
      write (new ⟨true, []⟩ 1 2) [97, 10, 98, 99, 10] 5 = .ok ((5 : Int), t2) :=
  ⟨rfl, by decide, by decide, Or.inr (by decide),
    write_split (new ⟨true, []⟩ 1 2) [97, 10, 98] [99, 10] rfl (by decide) (by decide)
      (Or.inr (by decide))⟩

end UARTService
